import Mathlib

/-!
Verification of the SDT.lab network-simulator core: the generic adjacency-list
graph, breadth/depth-first traversal, lazy-deletion Dijkstra, the link cost
model and packet replay.  C++ `double` values are modelled as exact rationals,
`std::map` as an association list keyed by first binding, and the
`std::priority_queue` as a multiset with lexicographic minimum extraction.
-/

set_option maxHeartbeats 1000000

/-! ## Association-list maps (model of `std::map`) -/

/-- First-binding lookup in an association list. -/
def getA {α β : Type} [DecidableEq α] : List (α × β) → α → Option β
  | [], _ => none
  | p :: rest, k => if p.1 = k then some p.2 else getA rest k

/-- Overwrite the first binding of a key, appending a fresh binding if the key
is absent (the write path of `std::map::operator[]`). -/
def setA {α β : Type} [DecidableEq α] : List (α × β) → α → β → List (α × β)
  | [], k, v => [(k, v)]
  | p :: rest, k, v => if p.1 = k then (k, v) :: rest else p :: setA rest k v

theorem getA_setA_same {α β : Type} [DecidableEq α] (m : List (α × β)) (k : α) (v : β) :
    getA (setA m k v) k = some v := by
  induction m with
  | nil => simp [getA, setA]
  | cons p rest ih =>
    by_cases h : p.1 = k
    · simp [setA, h, getA]
    · simp [setA, h, getA, ih]

theorem getA_setA_ne {α β : Type} [DecidableEq α] (m : List (α × β)) (k k' : α) (v : β)
    (h : k ≠ k') : getA (setA m k v) k' = getA m k' := by
  induction m with
  | nil => simp [getA, setA, h]
  | cons p rest ih =>
    by_cases hp : p.1 = k
    · simp [setA, hp, getA, h]
    · by_cases hp' : p.1 = k'
      · simp [setA, hp, getA, hp', Ne.symm h]
      · simp [setA, hp, getA, hp', ih]

theorem getA_isSome_setA {α β : Type} [DecidableEq α] (m : List (α × β)) (k k' : α) (v : β) :
    (getA (setA m k v) k').isSome ↔ (k = k' ∨ (getA m k').isSome) := by
  by_cases h : k = k'
  · subst h; simp [getA_setA_same]
  · rw [getA_setA_ne m k k' v h]; simp [h]

/-! ## The graph ADT (`Graph.h`) -/

/-- Model of `Graph<TNode, TEdge>`: an adjacency list mapping each node to its
ordered sequence of (neighbor, edge-payload) pairs, plus the directedness flag
fixed at construction. -/
structure Graph (TNode TEdge : Type) where
  adjacency : List (TNode × List (TNode × TEdge))
  directed_ : Bool

variable {TNode TEdge : Type}

/-- `Graph::hasNode`. -/
def hasNode [DecidableEq TNode] (g : Graph TNode TEdge) (n : TNode) : Bool :=
  (getA g.adjacency n).isSome

/-- `Graph::addNode`: inserts the node with an empty adjacency vector if absent. -/
def addNode [DecidableEq TNode] (g : Graph TNode TEdge) (n : TNode) : Graph TNode TEdge :=
  if hasNode g n then g else { g with adjacency := g.adjacency ++ [(n, [])] }

/-- Append a pair to the adjacency vector of an existing key. -/
def pushAdj [DecidableEq TNode] (g : Graph TNode TEdge) (k : TNode) (p : TNode × TEdge) :
    Graph TNode TEdge :=
  { g with adjacency := setA g.adjacency k (((getA g.adjacency k).getD []) ++ [p]) }

/-- `Graph::addEdge`: ensures both endpoints exist, pushes `(to, edge)` onto
`from`'s vector, and the mirror pair when the graph is undirected. -/
def addEdge [DecidableEq TNode] (g : Graph TNode TEdge) (u v : TNode) (e : TEdge) :
    Graph TNode TEdge :=
  let g1 := addNode (addNode g u) v
  let g2 := pushAdj g1 u (v, e)
  if g.directed_ then g2 else pushAdj g2 v (u, e)

/-- `Graph::removeNode`: erases the node's own entry and strips every pair
referencing it from the remaining adjacency vectors. -/
def removeNode [DecidableEq TNode] (g : Graph TNode TEdge) (n : TNode) : Graph TNode TEdge :=
  let keep := g.adjacency.filter (fun p => ¬ p.1 = n)
  { g with adjacency := keep.map (fun p => (p.1, p.2.filter (fun q => ¬ q.1 = n))) }

/-- `Graph::getNeighbors`: the neighbor identities in adjacency order, empty if
the node is absent. -/
def getNeighbors [DecidableEq TNode] (g : Graph TNode TEdge) (n : TNode) : List TNode :=
  ((getA g.adjacency n).getD []).map Prod.fst

/-- `Graph::size`. -/
def graphSize (g : Graph TNode TEdge) : Nat := g.adjacency.length

/-! ## Link and packet model (`Network.h`) -/

/-- Model of `Link`: latency in milliseconds, bandwidth in Mbit/s, reliability. -/
structure Link where
  latencyMs : ℚ
  bandwidthMbps : ℚ
  reliability : ℚ
deriving DecidableEq

/-- `Link::costForBytes`: seconds of latency plus payload transmission time,
with the `1e9` sentinel replacing the payload term on a zero/negative-bandwidth
link. -/
def costForBytes (link : Link) (bytes : ℕ) : ℚ :=
  let secondsLatency := link.latencyMs / 1000
  let secondsPayload :=
    if link.bandwidthMbps > 0 then (bytes : ℚ) * 8 / (link.bandwidthMbps * 1000000)
    else 1e9
  secondsLatency + secondsPayload

/-- The cost formula exactly as the specification words it, for comparison with
the implementation. -/
def costSpec (link : Link) (bytes : ℕ) : ℚ :=
  if link.bandwidthMbps > 0 then
    link.latencyMs / 1000 + (bytes : ℚ) * 8 / (link.bandwidthMbps * 1000000)
  else link.latencyMs / 1000 + 1e9

/-- Model of `Packet`: identity, mutable TTL counter (a C++ `int`, hence an
integer that `decTTL` can drive negative), payload size, append-only hop
history. -/
structure Packet where
  src : String
  dst : String
  ttl : ℤ
  size : ℕ
  hops : List String
deriving DecidableEq

/-- `Packet::decTTL`. -/
def decTTL (p : Packet) : Packet := { p with ttl := p.ttl - 1 }

/-- `Packet::addHop`. -/
def addHop (p : Packet) (nodeName : String) : Packet := { p with hops := p.hops ++ [nodeName] }

/-! ## Network simulator (`NetworkSimulator.h`) -/

/-- The part of `Device` the simulator consumes: numeric id and name. -/
structure Device where
  id : ℤ
  name : String
deriving DecidableEq

/-- The two error conditions `NetworkSimulator` can raise. -/
inductive SimError where
  | invalidArgument
  | notFound
deriving DecidableEq

/-- Model of `NetworkSimulator` state: the directed `Link`-weighted topology
graph and the device registry. -/
structure NetworkSimulator where
  graph_ : Graph String Link
  devices_ : List (String × Device)

/-- `NetworkSimulator::addDevice`: a null pointer raises, otherwise the device
is registered under its name and a graph node is ensured.  The first component
is the raised error, if any; the second is the resulting simulator state. -/
def addDevice (sim : NetworkSimulator) (d : Option Device) :
    Option SimError × NetworkSimulator :=
  match d with
  | none => (some .invalidArgument, sim)
  | some dev =>
      (none, { graph_ := addNode sim.graph_ dev.name,
               devices_ := setA sim.devices_ dev.name dev })

/-- `NetworkSimulator::connect`: raises when either endpoint is not an existing
node, otherwise inserts `a→b` and, when `bidir`, also `b→a` with the same link. -/
def connect (sim : NetworkSimulator) (a b : String) (link : Link) (bidir : Bool) :
    Option SimError × NetworkSimulator :=
  if hasNode sim.graph_ a ∧ hasNode sim.graph_ b then
    let g1 := addEdge sim.graph_ a b link
    let g2 := if bidir then addEdge g1 b a link else g1
    (none, { sim with graph_ := g2 })
  else (some .notFound, sim)

/-- The inner scan of `sendPacket`: walk `u`'s adjacency vector and charge the
first entry toward `v`, defaulting to `1e9`. -/
def scanCost (bytes : ℕ) (v : String) : List (String × Link) → ℚ
  | [] => 1e9
  | (t, link) :: rest => if t = v then costForBytes link bytes else scanCost bytes v rest

/-- Cost charged for one hop `u → v`: `1e9` when `u` has no adjacency entry,
otherwise the scan of `u`'s adjacency vector. -/
def hopCost (g : Graph String Link) (bytes : ℕ) (u v : String) : ℚ :=
  match getA g.adjacency u with
  | none => 1e9
  | some l => scanCost bytes v l

/-- The `for` loop of `sendPacket`: `prev` is the node the packet is currently
at, `rest` the remaining nodes of the path. -/
def sendLoop (g : Graph String Link) (prev : String) :
    List String → Packet → ℚ → ℚ × Packet
  | [], pkt, total => (total, pkt)
  | v :: rest, pkt, total =>
      if pkt.ttl ≤ 0 then (total, pkt)
      else sendLoop g v rest (addHop (decTTL pkt) v) (total + hopCost g pkt.size prev v)

/-- `NetworkSimulator::sendPacket` over the topology graph: returns the total
transmission time and the mutated packet. -/
def sendPacket (g : Graph String Link) (path : List String) (pkt : Packet) : ℚ × Packet :=
  match path with
  | p0 :: v :: rest => sendLoop g p0 (v :: rest) (addHop pkt p0) 0
  | _ => (0, pkt)

/-- Consecutive pairs of the walk starting at `prev` and continuing through the
listed nodes. -/
def hopPairs : String → List String → List (String × String)
  | _, [] => []
  | prev, v :: rest => (prev, v) :: hopPairs v rest

/-- Sum of per-hop charges along a walk. -/
def chargeSum (g : Graph String Link) (bytes : ℕ) (prev : String) (l : List String) : ℚ :=
  ((hopPairs prev l).map (fun p => hopCost g bytes p.1 p.2)).sum

theorem chargeSum_nil (g : Graph String Link) (bytes : ℕ) (prev : String) :
    chargeSum g bytes prev [] = 0 := by
  simp [chargeSum, hopPairs]

theorem chargeSum_cons (g : Graph String Link) (bytes : ℕ) (prev v : String)
    (l : List String) :
    chargeSum g bytes prev (v :: l) = hopCost g bytes prev v + chargeSum g bytes v l := by
  simp [chargeSum, hopPairs]

/-- Closed form of the replay loop: it executes `min rest.length ttl⁺` hops,
charging each according to `hopCost`, decrementing the TTL once per hop and
appending each reached node to the hop history. -/
theorem sendLoop_eq (g : Graph String Link) (rest : List String) :
    ∀ (prev : String) (pkt : Packet) (total : ℚ),
      sendLoop g prev rest pkt total =
        (total + chargeSum g pkt.size prev (rest.take (min rest.length pkt.ttl.toNat)),
         { pkt with ttl := pkt.ttl - (min rest.length pkt.ttl.toNat : ℕ),
                    hops := pkt.hops ++ rest.take (min rest.length pkt.ttl.toNat) }) := by
  induction rest with
  | nil =>
    intro prev pkt total
    simp [sendLoop, chargeSum_nil]
  | cons v rest' ih =>
    intro prev pkt total
    by_cases h : pkt.ttl ≤ 0
    · have h0 : pkt.ttl.toNat = 0 := by omega
      simp [sendLoop, h, h0, chargeSum_nil]
    · have h1 : pkt.ttl.toNat = (pkt.ttl - 1).toNat + 1 := by omega
      have hmin : min (v :: rest').length pkt.ttl.toNat
          = min rest'.length (pkt.ttl - 1).toNat + 1 := by
        rw [h1, List.length_cons, Nat.succ_min_succ]
      rw [sendLoop, if_neg h, ih]
      have hsz : (addHop (decTTL pkt) v).size = pkt.size := rfl
      have httl : (addHop (decTTL pkt) v).ttl = pkt.ttl - 1 := rfl
      have hhops : (addHop (decTTL pkt) v).hops = pkt.hops ++ [v] := rfl
      rw [hmin]
      simp only [hsz, httl, hhops, List.take_succ_cons, chargeSum_cons]
      simp only [Prod.mk.injEq, Packet.mk.injEq, addHop, decTTL]
      refine ⟨by ring, ?_, ?_⟩
      · push_cast
      · exact ⟨trivial, by push_cast; omega, trivial, by simp⟩

/-- C4 (amended): `costForBytes` computes exactly the specified formula
`latencyMs/1000 + (bandwidthMbps>0 ? bytes*8/(bandwidthMbps*1e6) : 1e9)`, and
for every link with `bandwidthMbps = 0` and nonnegative `latencyMs` the result
is at least `1e9` regardless of the byte count. -/
theorem c4_link_cost_spec (link : Link) (bytes : ℕ) :
    costForBytes link bytes = costSpec link bytes ∧
    (link.bandwidthMbps = 0 → 0 ≤ link.latencyMs →
      (1e9 : ℚ) ≤ costForBytes link bytes) := by
  constructor
  · unfold costForBytes costSpec
    by_cases h : link.bandwidthMbps > 0 <;> simp [h]
  · intro h0 hl
    unfold costForBytes
    rw [h0]
    norm_num
    have : (0 : ℚ) ≤ link.latencyMs / 1000 := by positivity
    linarith

/-- C4 counterexample: the claim promises `costForBytes ≥ 1e9` for a
zero-bandwidth link regardless of the latency value, but a sufficiently
negative latency drives the result below `1e9`. -/
theorem c4_negative_latency_cex :
    costForBytes { latencyMs := -2000000000000, bandwidthMbps := 0, reliability := 1 } 0
      < 1e9 := by
  norm_num [costForBytes]

/-- C4 witness at the test-suite link `{5.0, 0.0, 1.0}` with 1000 bytes. -/
theorem c4_link_cost_spec_witness :
    costForBytes { latencyMs := 5, bandwidthMbps := 0, reliability := 1 } 1000
        = costSpec { latencyMs := 5, bandwidthMbps := 0, reliability := 1 } 1000 ∧
      (1e9 : ℚ) ≤ costForBytes { latencyMs := 5, bandwidthMbps := 0, reliability := 1 } 1000 :=
  ⟨(c4_link_cost_spec _ 1000).1,
   (c4_link_cost_spec { latencyMs := 5, bandwidthMbps := 0, reliability := 1 } 1000).2
     rfl (by norm_num)⟩

/-- C3 (amended): along an `N`-node path, `sendPacket` decrements the TTL by
exactly `min (N-1) (max ttl 0)` (the `max` accounts for packets whose TTL is
already zero or negative, which are not incremented back), appends exactly that
many hop names plus the starting hop, and a path shorter than two nodes yields
cost `0.0` with no mutation of the packet. -/
theorem c3_sendPacket_replay (g : Graph String Link) (path : List String) (pkt : Packet) :
    (2 ≤ path.length →
      (sendPacket g path pkt).2.ttl = pkt.ttl - min (path.length - 1) pkt.ttl.toNat ∧
      (sendPacket g path pkt).2.hops =
        pkt.hops ++ path.take (min (path.length - 1) pkt.ttl.toNat + 1)) ∧
    (path.length < 2 → sendPacket g path pkt = (0, pkt)) := by
  constructor
  · intro hlen
    match path, hlen with
    | p0 :: v :: rest, _ =>
      have hlen1 : (p0 :: v :: rest).length - 1 = (v :: rest).length := by simp
      rw [sendPacket, sendLoop_eq, hlen1]
      have httl : (addHop pkt p0).ttl = pkt.ttl := rfl
      have hhops : (addHop pkt p0).hops = pkt.hops ++ [p0] := rfl
      rw [httl, hhops]
      constructor
      · rfl
      · simp [List.take_succ_cons]
  · intro hlen
    match path, hlen with
    | [], _ => rfl
    | [p0], _ => rfl

/-- C3 counterexample: for a packet whose TTL is already negative the claimed
decrement `min (N-1) ttl` is negative, which would increase the TTL, while the
code leaves it untouched. -/
theorem c3_negative_ttl_cex :
    (sendPacket { adjacency := [], directed_ := true } ["a", "b"]
        { src := "s", dst := "d", ttl := -1, size := 0, hops := [] }).2.ttl ≠
      -1 - min (2 - 1 : ℤ) (-1) := by
  decide

/-- C3 witness: a three-node path with ample TTL loses exactly two TTL units
and gains the starting hop plus two hop names; a one-node path is untouched. -/
theorem c3_sendPacket_replay_witness :
    ((sendPacket { adjacency := [], directed_ := true } ["a", "b", "c"]
        { src := "s", dst := "d", ttl := 5, size := 0, hops := [] }).2.ttl = 3 ∧
      (sendPacket { adjacency := [], directed_ := true } ["a", "b", "c"]
        { src := "s", dst := "d", ttl := 5, size := 0, hops := [] }).2.hops
          = ["a", "b", "c"]) ∧
    sendPacket { adjacency := [], directed_ := true } ["a"]
        { src := "s", dst := "d", ttl := 5, size := 0, hops := [] } =
      (0, { src := "s", dst := "d", ttl := 5, size := 0, hops := [] }) := by
  constructor
  · have h := (c3_sendPacket_replay { adjacency := [], directed_ := true } ["a", "b", "c"]
      { src := "s", dst := "d", ttl := 5, size := 0, hops := [] }).1 (by decide)
    refine ⟨?_, ?_⟩
    · rw [h.1]; decide
    · rw [h.2]; decide
  · exact (c3_sendPacket_replay { adjacency := [], directed_ := true } ["a"]
      { src := "s", dst := "d", ttl := 5, size := 0, hops := [] }).2 (by decide)

/-! ## Graph lemmas -/

theorem getA_append {α β : Type} [DecidableEq α] (l₁ l₂ : List (α × β)) (k : α) :
    getA (l₁ ++ l₂) k = (getA l₁ k).or (getA l₂ k) := by
  induction l₁ with
  | nil => simp [getA]
  | cons p rest ih =>
    by_cases h : p.1 = k <;> simp [getA, h, ih]

theorem getA_eq_none_of_all_ne {α β : Type} [DecidableEq α] (l : List (α × β)) (k : α)
    (h : ∀ p ∈ l, p.1 ≠ k) : getA l k = none := by
  induction l with
  | nil => rfl
  | cons p rest ih =>
    have hp := h p (by simp)
    simp only [getA, if_neg hp]
    exact ih (fun q hq => h q (by simp [hq]))

/-- The adjacency vector of a node, empty when the node is absent. -/
def adjOf [DecidableEq TNode] (g : Graph TNode TEdge) (n : TNode) : List (TNode × TEdge) :=
  (getA g.adjacency n).getD []

theorem getA_addNode [DecidableEq TNode] (g : Graph TNode TEdge) (n m : TNode) :
    getA (addNode g n).adjacency m
      = (getA g.adjacency m).or (if n = m then some [] else none) := by
  by_cases h : hasNode g n
  · simp only [addNode, if_pos h]
    by_cases hm : n = m
    · subst hm
      rcases hg : getA g.adjacency n with _ | l
      · exact absurd h (by simp [hasNode, hg])
      · simp [hg]
    · simp [hm]
  · simp only [addNode, if_neg h]
    rw [getA_append]
    congr 1

theorem adjOf_addNode [DecidableEq TNode] (g : Graph TNode TEdge) (n m : TNode) :
    adjOf (addNode g n) m = adjOf g m := by
  unfold adjOf
  rw [getA_addNode]
  rcases getA g.adjacency m with _ | l
  · by_cases hm : n = m <;> simp [hm]
  · simp

theorem hasNode_addNode [DecidableEq TNode] (g : Graph TNode TEdge) (n m : TNode) :
    hasNode (addNode g n) m = true ↔ (n = m ∨ hasNode g m = true) := by
  unfold hasNode
  rw [getA_addNode]
  rcases getA g.adjacency m with _ | l
  · by_cases hm : n = m <;> simp [hm]
  · simp

theorem getA_pushAdj_same [DecidableEq TNode] (g : Graph TNode TEdge) (k : TNode)
    (p : TNode × TEdge) : getA (pushAdj g k p).adjacency k = some (adjOf g k ++ [p]) := by
  simp [pushAdj, getA_setA_same, adjOf]

theorem getA_pushAdj_ne [DecidableEq TNode] (g : Graph TNode TEdge) (k m : TNode)
    (p : TNode × TEdge) (h : k ≠ m) :
    getA (pushAdj g k p).adjacency m = getA g.adjacency m := by
  simp [pushAdj, getA_setA_ne _ _ _ _ h]

theorem adjOf_pushAdj_same [DecidableEq TNode] (g : Graph TNode TEdge) (k : TNode)
    (p : TNode × TEdge) : adjOf (pushAdj g k p) k = adjOf g k ++ [p] := by
  simp [adjOf, getA_pushAdj_same]

theorem adjOf_pushAdj_ne [DecidableEq TNode] (g : Graph TNode TEdge) (k m : TNode)
    (p : TNode × TEdge) (h : k ≠ m) : adjOf (pushAdj g k p) m = adjOf g m := by
  simp [adjOf, getA_pushAdj_ne _ _ _ _ h]

theorem hasNode_pushAdj [DecidableEq TNode] (g : Graph TNode TEdge) (k m : TNode)
    (p : TNode × TEdge) : hasNode (pushAdj g k p) m = true ↔ (k = m ∨ hasNode g m = true) := by
  simp [hasNode, pushAdj, getA_isSome_setA]

theorem directed_addNode [DecidableEq TNode] (g : Graph TNode TEdge) (n : TNode) :
    (addNode g n).directed_ = g.directed_ := by
  by_cases h : hasNode g n <;> simp [addNode, h]

theorem directed_pushAdj [DecidableEq TNode] (g : Graph TNode TEdge) (k : TNode)
    (p : TNode × TEdge) : (pushAdj g k p).directed_ = g.directed_ := rfl

theorem directed_addEdge [DecidableEq TNode] (g : Graph TNode TEdge) (u v : TNode) (e : TEdge) :
    (addEdge g u v e).directed_ = g.directed_ := by
  unfold addEdge
  by_cases h : g.directed_ <;>
    simp [h, directed_pushAdj, directed_addNode]

theorem mem_adjOf_pushAdj [DecidableEq TNode] (g : Graph TNode TEdge) (k m : TNode)
    (p q : TNode × TEdge) (h : q ∈ adjOf g m) : q ∈ adjOf (pushAdj g k p) m := by
  by_cases hk : k = m
  · subst hk
    rw [adjOf_pushAdj_same]
    exact List.mem_append_left _ h
  · rw [adjOf_pushAdj_ne _ _ _ _ hk]
    exact h

theorem mem_adjOf_addEdge [DecidableEq TNode] (g : Graph TNode TEdge) (u v : TNode) (e : TEdge)
    (m : TNode) (q : TNode × TEdge) (h : q ∈ adjOf g m) : q ∈ adjOf (addEdge g u v e) m := by
  unfold addEdge
  have h1 : q ∈ adjOf (addNode (addNode g u) v) m := by
    rw [adjOf_addNode, adjOf_addNode]; exact h
  by_cases hd : g.directed_ <;> simp only [hd, Bool.false_eq_true, if_true, if_false]
  · exact mem_adjOf_pushAdj _ _ _ _ _ h1
  · exact mem_adjOf_pushAdj _ _ _ _ _ (mem_adjOf_pushAdj _ _ _ _ _ h1)

theorem addEdge_mem_from [DecidableEq TNode] (g : Graph TNode TEdge) (u v : TNode) (e : TEdge) :
    (v, e) ∈ adjOf (addEdge g u v e) u := by
  unfold addEdge
  have h1 : (v, e) ∈ adjOf (pushAdj (addNode (addNode g u) v) u (v, e)) u := by
    rw [adjOf_pushAdj_same]
    exact List.mem_append_right _ (by simp)
  by_cases hd : g.directed_ <;> simp only [hd, Bool.false_eq_true, if_true, if_false]
  · exact h1
  · exact mem_adjOf_pushAdj _ _ _ _ _ h1

theorem addEdge_mem_mirror [DecidableEq TNode] (g : Graph TNode TEdge) (u v : TNode) (e : TEdge)
    (hd : g.directed_ = false) : (u, e) ∈ adjOf (addEdge g u v e) v := by
  unfold addEdge
  simp only [hd, Bool.false_eq_true, if_false]
  rw [adjOf_pushAdj_same]
  exact List.mem_append_right _ (by simp)

theorem adjOf_addEdge_from [DecidableEq TNode] (g : Graph TNode TEdge) (u v : TNode) (e : TEdge)
    (hd : g.directed_ = true) : adjOf (addEdge g u v e) u = adjOf g u ++ [(v, e)] := by
  unfold addEdge
  simp only [hd, if_true]
  rw [adjOf_pushAdj_same, adjOf_addNode, adjOf_addNode]

theorem adjOf_addEdge_other [DecidableEq TNode] (g : Graph TNode TEdge) (u v : TNode) (e : TEdge)
    (m : TNode) (hd : g.directed_ = true) (h : u ≠ m) :
    adjOf (addEdge g u v e) m = adjOf g m := by
  unfold addEdge
  simp only [hd, if_true]
  rw [adjOf_pushAdj_ne _ _ _ _ h, adjOf_addNode, adjOf_addNode]

theorem hasNode_addEdge [DecidableEq TNode] (g : Graph TNode TEdge) (u v : TNode) (e : TEdge)
    (m : TNode) : hasNode (addEdge g u v e) m = true ↔ (u = m ∨ v = m ∨ hasNode g m = true) := by
  unfold addEdge
  by_cases hd : g.directed_ <;>
    simp only [hd, Bool.false_eq_true, if_true, if_false] <;>
    simp [hasNode_pushAdj, hasNode_addNode] <;> tauto

theorem getNeighbors_eq_adjOf [DecidableEq TNode] (g : Graph TNode TEdge) (n : TNode) :
    getNeighbors g n = (adjOf g n).map Prod.fst := rfl

/-- C5: after `addEdge(u,v,e)` both endpoints exist; on a directed graph `v`
gains exactly one more occurrence in `getNeighbors(u)` (parallel edges are
kept) and, for `u ≠ v`, `getNeighbors(v)` is untouched; on an undirected graph
the mirror entry with the same payload is inserted as well. -/
theorem c5_addEdge_semantics [DecidableEq TNode] (g : Graph TNode TEdge) (u v : TNode)
    (e : TEdge) :
    hasNode (addEdge g u v e) u = true ∧ hasNode (addEdge g u v e) v = true ∧
    (g.directed_ = true →
      List.count v (getNeighbors (addEdge g u v e) u)
          = List.count v (getNeighbors g u) + 1 ∧
      (u ≠ v → getNeighbors (addEdge g u v e) v = getNeighbors g v)) ∧
    (g.directed_ = false →
      (v, e) ∈ adjOf (addEdge g u v e) u ∧ (u, e) ∈ adjOf (addEdge g u v e) v) := by
  refine ⟨?_, ?_, ?_, ?_⟩
  · exact (hasNode_addEdge g u v e u).mpr (Or.inl rfl)
  · exact (hasNode_addEdge g u v e v).mpr (Or.inr (Or.inl rfl))
  · intro hd
    constructor
    · rw [getNeighbors_eq_adjOf, getNeighbors_eq_adjOf, adjOf_addEdge_from g u v e hd]
      simp
    · intro huv
      rw [getNeighbors_eq_adjOf, getNeighbors_eq_adjOf, adjOf_addEdge_other g u v e v hd huv]
  · intro hd
    exact ⟨addEdge_mem_from g u v e, addEdge_mem_mirror g u v e hd⟩

/-- C5 witness: the undirected test graph `addEdge('A','B',1.0)` and a directed
two-edge graph with a parallel edge. -/
theorem c5_addEdge_semantics_witness :
    (hasNode (addEdge { adjacency := [], directed_ := false } 0 1 (5 : ℚ)) 0 = true ∧
      (1, (5 : ℚ)) ∈ adjOf (addEdge { adjacency := [], directed_ := false } 0 1 (5 : ℚ)) 0 ∧
      (0, (5 : ℚ)) ∈ adjOf (addEdge { adjacency := [], directed_ := false } 0 1 (5 : ℚ)) 1) ∧
    (List.count 1 (getNeighbors
        (addEdge (addEdge { adjacency := [], directed_ := true } 0 1 (5 : ℚ)) 0 1 (7 : ℚ)) 0)
      = 2 ∧
     getNeighbors
        (addEdge (addEdge { adjacency := [], directed_ := true } 0 1 (5 : ℚ)) 0 1 (7 : ℚ)) 1
      = []) := by
  constructor
  · have h := c5_addEdge_semantics
      ({ adjacency := [], directed_ := false } : Graph ℕ ℚ) 0 1 5
    have h4 := h.2.2.2 rfl
    exact ⟨h.1, h4.1, h4.2⟩
  · have h := c5_addEdge_semantics
      (addEdge ({ adjacency := [], directed_ := true } : Graph ℕ ℚ) 0 1 (5 : ℚ)) 0 1 7
    have hd : (addEdge { adjacency := [], directed_ := true } 0 1 (5 : ℚ)).directed_ = true :=
      directed_addEdge _ _ _ _
    have h3 := h.2.2.1 hd
    constructor
    · rw [h3.1]; decide
    · rw [h3.2 (by decide)]; decide

/-- C6: after `removeNode(n)` the node is gone and no remaining adjacency
sequence contains a pair referencing `n`. -/
theorem c6_removeNode_no_dangling [DecidableEq TNode] (g : Graph TNode TEdge) (n : TNode) :
    hasNode (removeNode g n) n = false ∧
    ∀ p ∈ (removeNode g n).adjacency, ∀ q ∈ p.2, q.1 ≠ n := by
  constructor
  · unfold hasNode
    rw [getA_eq_none_of_all_ne]
    · rfl
    · intro p hp
      simp only [removeNode, List.mem_map, List.mem_filter] at hp
      obtain ⟨r, ⟨_, hrn⟩, rfl⟩ := hp
      simpa using hrn
  · intro p hp q hq
    simp only [removeNode, List.mem_map, List.mem_filter] at hp
    obtain ⟨r, ⟨_, _⟩, rfl⟩ := hp
    simp only [List.mem_filter] at hq
    simpa using hq.2

/-- C6 witness: removing node 1 from the two-edge test graph. -/
theorem c6_removeNode_no_dangling_witness :
    hasNode (removeNode
      (addEdge (addEdge { adjacency := [], directed_ := true } 1 2 (10 : ℚ)) 2 3 (20 : ℚ)) 1) 1
        = false ∧
    ∀ p ∈ (removeNode
      (addEdge (addEdge { adjacency := [], directed_ := true } 1 2 (10 : ℚ)) 2 3 (20 : ℚ))
        1).adjacency, ∀ q ∈ p.2, q.1 ≠ 1 :=
  c6_removeNode_no_dangling
    (addEdge (addEdge ({ adjacency := [], directed_ := true } : Graph ℕ ℚ) 1 2 10) 2 3 20) 1

/-- C7: `addDevice` raises invalid-argument exactly on a null device,
`connect` raises not-found exactly when an endpoint is unregistered, both
leave the simulator state unchanged on error, and a successful `connect`
inserts `a→b` and, when `bidir`, also `b→a` with the same link value. -/
theorem c7_simulator_error_handling (sim : NetworkSimulator) (a b : String) (link : Link)
    (bidir : Bool) :
    (∀ d : Option Device, (addDevice sim d).1 = some SimError.invalidArgument ↔ d = none) ∧
    (∀ d : Option Device, (addDevice sim d).1 ≠ none → (addDevice sim d).2 = sim) ∧
    ((connect sim a b link bidir).1 = some SimError.notFound ↔
      ¬ (hasNode sim.graph_ a = true ∧ hasNode sim.graph_ b = true)) ∧
    ((connect sim a b link bidir).1 ≠ none → (connect sim a b link bidir).2 = sim) ∧
    ((connect sim a b link bidir).1 = none →
      (connect sim a b link bidir).2.devices_ = sim.devices_ ∧
      (b, link) ∈ adjOf (connect sim a b link bidir).2.graph_ a ∧
      (bidir = true → (a, link) ∈ adjOf (connect sim a b link bidir).2.graph_ b)) := by
  refine ⟨?_, ?_, ?_, ?_, ?_⟩
  · intro d
    cases d <;> simp [addDevice]
  · intro d hd
    cases d with
    | none => rfl
    | some dev => simp [addDevice] at hd
  · by_cases h : hasNode sim.graph_ a = true ∧ hasNode sim.graph_ b = true <;>
      simp [connect, h]
  · intro h
    by_cases hab : hasNode sim.graph_ a = true ∧ hasNode sim.graph_ b = true
    · simp [connect, hab] at h
    · simp [connect, hab]
  · intro h
    by_cases hab : hasNode sim.graph_ a = true ∧ hasNode sim.graph_ b = true
    · refine ⟨by simp [connect, hab], ?_, ?_⟩
      · cases bidir <;>
          simp only [connect, hab, and_self, if_true, if_false, Bool.false_eq_true]
        · exact addEdge_mem_from _ _ _ _
        · exact mem_adjOf_addEdge _ _ _ _ _ _ (addEdge_mem_from _ _ _ _)
      · intro hb
        subst hb
        simp only [connect, hab, and_self, if_true]
        exact addEdge_mem_from _ _ _ _
    · simp [connect, hab] at h

/-- Concrete empty simulator used by witnesses. -/
def simEmpty : NetworkSimulator :=
  { graph_ := { adjacency := [], directed_ := true }, devices_ := [] }

/-- Concrete two-node simulator used by witnesses. -/
def simRS : NetworkSimulator :=
  { graph_ := { adjacency := [("R1", []), ("S1", [])], directed_ := true }, devices_ := [] }

/-- Concrete link used by witnesses. -/
def linkW : Link := { latencyMs := 1, bandwidthMbps := 100, reliability := 1 }

/-- C7 witness: a concrete two-node simulator accepting one connect call and
rejecting a connect to an unknown node; a null device is rejected without
state change. -/
theorem c7_simulator_error_handling_witness :
    (addDevice simEmpty none).1 = some SimError.invalidArgument ∧
    (addDevice simEmpty none).2 = simEmpty ∧
    (connect simRS "R1" "X" linkW true).1 = some SimError.notFound ∧
    ("S1", linkW) ∈ adjOf (connect simRS "R1" "S1" linkW true).2.graph_ "R1" := by
  refine ⟨?_, ?_, ?_, ?_⟩
  · exact ((c7_simulator_error_handling simEmpty "a" "b" linkW true).1 none).mpr rfl
  · exact (c7_simulator_error_handling simEmpty "a" "b" linkW true).2.1 none
      (by simp [addDevice])
  · exact (c7_simulator_error_handling simRS "R1" "X" linkW true).2.2.1.mpr (by decide)
  · exact ((c7_simulator_error_handling simRS "R1" "S1" linkW true).2.2.2.2 (by decide)).2.1

theorem scanCost_skip (bytes : ℕ) (v : String) (pre l : List (String × Link))
    (hpre : ∀ q ∈ pre, q.1 ≠ v) : scanCost bytes v (pre ++ l) = scanCost bytes v l := by
  induction pre with
  | nil => rfl
  | cons q rest ih =>
    have hq : q.1 ≠ v := hpre q (by simp)
    rcases q with ⟨t, link⟩
    simp only [List.cons_append, scanCost, if_neg hq]
    exact ih (fun r hr => hpre r (by simp [hr]))

theorem scanCost_all_ne (bytes : ℕ) (v : String) (l : List (String × Link))
    (h : ∀ q ∈ l, q.1 ≠ v) : scanCost bytes v l = 1e9 := by
  have := scanCost_skip bytes v l [] (by simpa using h)
  simpa using this

theorem sendLoop_ttl_nonpos (g : Graph String Link) (prev : String) (l : List String)
    (pkt : Packet) (total : ℚ) (h : pkt.ttl ≤ 0) :
    sendLoop g prev l pkt total = (total, pkt) := by
  cases l with
  | nil => rfl
  | cons v rest => simp [sendLoop, h]

theorem sendLoop_append (g : Graph String Link) (xs : List String) :
    ∀ (prev : String) (ys : List String) (pkt : Packet) (total : ℚ),
      sendLoop g prev (xs ++ ys) pkt total =
        sendLoop g ((prev :: xs).getLast (by simp))
          ys (sendLoop g prev xs pkt total).2 (sendLoop g prev xs pkt total).1 := by
  induction xs with
  | nil =>
    intro prev ys pkt total
    simp [sendLoop]
  | cons x xs' ih =>
    intro prev ys pkt total
    by_cases h : pkt.ttl ≤ 0
    · rw [List.cons_append, sendLoop_ttl_nonpos _ _ _ _ _ h, sendLoop_ttl_nonpos _ _ _ _ _ h]
      exact (sendLoop_ttl_nonpos _ _ _ _ _ h).symm
    · have hstep : ∀ l, sendLoop g prev (x :: l) pkt total
          = sendLoop g x l (addHop (decTTL pkt) x) (total + hopCost g pkt.size prev x) := by
        intro l
        simp [sendLoop, h]
      rw [List.cons_append, hstep, hstep, ih]
      congr 1

/-- C8: when `u`'s adjacency sequence holds parallel entries toward `v`, a hop
`u → v` is charged the cost of the first entry toward `v` in adjacency order —
regardless of what later (possibly cheaper) parallel entries cost — and a full
replay with sufficient TTL charges every consecutive hop that way. -/
theorem c8_first_match_charging (g : Graph String Link) (u v : String) (link : Link)
    (pre post : List (String × Link)) (pkt : Packet)
    (hadj : getA g.adjacency u = some (pre ++ (v, link) :: post))
    (hpre : ∀ q ∈ pre, q.1 ≠ v) (httl : 0 < pkt.ttl) :
    hopCost g pkt.size u v = costForBytes link pkt.size ∧
    (sendPacket g [u, v] pkt).1 = costForBytes link pkt.size ∧
    (∀ (p0 : String) (rest : List String), (rest.length : ℤ) ≤ pkt.ttl →
      (sendPacket g (p0 :: rest) pkt).1 = chargeSum g pkt.size p0 rest) := by
  have hc : hopCost g pkt.size u v = costForBytes link pkt.size := by
    simp only [hopCost, hadj]
    rw [scanCost_skip _ _ _ _ hpre]
    simp [scanCost]
  have hgen : ∀ (p0 : String) (rest : List String), (rest.length : ℤ) ≤ pkt.ttl →
      (sendPacket g (p0 :: rest) pkt).1 = chargeSum g pkt.size p0 rest := by
    intro p0 rest hlen
    cases rest with
    | nil => simp [sendPacket, chargeSum_nil]
    | cons v1 rest' =>
      have hmin : min (v1 :: rest').length pkt.ttl.toNat = (v1 :: rest').length := by
        simp only [List.length_cons] at hlen ⊢
        omega
      rw [sendPacket, sendLoop_eq]
      have hsz : (addHop pkt p0).size = pkt.size := rfl
      have httl' : (addHop pkt p0).ttl = pkt.ttl := rfl
      rw [hsz, httl', hmin, List.take_length]
      simp
  refine ⟨hc, ?_, hgen⟩
  have h2 := hgen u [v] (by simpa using httl)
  rw [h2, chargeSum_cons, chargeSum_nil, hc]
  ring

/-- C8 witness: parallel edges `u→v` where the first entry costs 2ms latency
and the second only 1ms; the replay charges the first (more expensive) entry. -/
theorem c8_first_match_charging_witness :
    hopCost
        { adjacency := [("u", [("v", { latencyMs := 2, bandwidthMbps := 100, reliability := 1 }),
                               ("v", { latencyMs := 1, bandwidthMbps := 100, reliability := 1 })]),
                        ("v", [])], directed_ := true }
        0 "u" "v"
      = costForBytes { latencyMs := 2, bandwidthMbps := 100, reliability := 1 } 0 ∧
    (sendPacket
        { adjacency := [("u", [("v", { latencyMs := 2, bandwidthMbps := 100, reliability := 1 }),
                               ("v", { latencyMs := 1, bandwidthMbps := 100, reliability := 1 })]),
                        ("v", [])], directed_ := true }
        ["u", "v"] { src := "s", dst := "d", ttl := 8, size := 0, hops := [] }).1
      = costForBytes { latencyMs := 2, bandwidthMbps := 100, reliability := 1 } 0 := by
  have h := c8_first_match_charging
    { adjacency := [("u", [("v", { latencyMs := 2, bandwidthMbps := 100, reliability := 1 }),
                           ("v", { latencyMs := 1, bandwidthMbps := 100, reliability := 1 })]),
                    ("v", [])], directed_ := true }
    "u" "v" { latencyMs := 2, bandwidthMbps := 100, reliability := 1 }
    [] [("v", { latencyMs := 1, bandwidthMbps := 100, reliability := 1 })]
    { src := "s", dst := "d", ttl := 8, size := 0, hops := [] }
    (by decide) (by decide) (by decide)
  exact ⟨h.1, h.2.1⟩

theorem sendPacket_eq_loop (g : Graph String Link) (p0 : String) (rest : List String)
    (pkt : Packet) (h : rest ≠ []) :
    sendPacket g (p0 :: rest) pkt = sendLoop g p0 rest (addHop pkt p0) 0 := by
  cases rest with
  | nil => exact absurd rfl h
  | cons v rest' => rfl

theorem sendLoop_step (g : Graph String Link) (prev v : String) (rest : List String)
    (pkt : Packet) (total : ℚ) (h : 0 < pkt.ttl) :
    sendLoop g prev (v :: rest) pkt total
      = sendLoop g v rest (addHop (decTTL pkt) v) (total + hopCost g pkt.size prev v) := by
  have h' : ¬ pkt.ttl ≤ 0 := by omega
  simp [sendLoop, h']

/-- C10 (amended): if a consecutive pair `(u,v)` of the path has no adjacency
entry from `u` to `v`, and the TTL has not expired before that hop is reached,
`sendPacket` does not raise: the hop is charged exactly `1e9`, the TTL is still
decremented and `v` is still appended to the hop history, after which the
replay continues normally. -/
theorem c10_missing_edge_behavior (g : Graph String Link) (pre post : List String)
    (u v : String) (pkt : Packet)
    (hmiss : ∀ l, getA g.adjacency u = some l → ∀ q ∈ l, q.1 ≠ v)
    (httl : (pre.length : ℤ) + 1 ≤ pkt.ttl) :
    hopCost g pkt.size u v = 1e9 ∧
    sendPacket g (pre ++ u :: v :: post) pkt
      = sendLoop g v post
          { pkt with ttl := pkt.ttl - pre.length - 1,
                     hops := (pkt.hops ++ (pre ++ [u])) ++ [v] }
          (chargeSum g pkt.size ((pre ++ [u]).headI) ((pre ++ [u]).tail) + 1e9) ∧
    v ∈ (sendPacket g (pre ++ u :: v :: post) pkt).2.hops := by
  have hc : hopCost g pkt.size u v = 1e9 := by
    rcases hg : getA g.adjacency u with _ | l
    · simp [hopCost, hg]
    · simp only [hopCost, hg]
      exact scanCost_all_ne _ _ _ (hmiss l hg)
  have hmain : sendPacket g (pre ++ u :: v :: post) pkt
      = sendLoop g v post
          { pkt with ttl := pkt.ttl - pre.length - 1,
                     hops := (pkt.hops ++ (pre ++ [u])) ++ [v] }
          (chargeSum g pkt.size ((pre ++ [u]).headI) ((pre ++ [u]).tail) + 1e9) := by
    cases pre with
    | nil =>
      rw [List.nil_append, sendPacket_eq_loop _ _ _ _ (by simp)]
      rw [sendLoop_step _ _ _ _ _ _ (by simpa using httl)]
      have harg : addHop (decTTL (addHop pkt u)) v
          = ({ pkt with
               ttl := pkt.ttl - (([] : List String).length : ℕ) - 1,
               hops := (pkt.hops ++ (([] : List String) ++ [u])) ++ [v] } : Packet) := by
        simp [addHop, decTTL]
      have htot : 0 + hopCost g (addHop pkt u).size u v
          = chargeSum g pkt.size ((([] : List String) ++ [u]).headI)
              ((([] : List String) ++ [u]).tail) + 1e9 := by
        show 0 + hopCost g pkt.size u v = chargeSum g pkt.size u [] + 1e9
        rw [hc, chargeSum_nil]
      rw [harg, htot]
    | cons p0 pre' =>
      rw [List.cons_append, sendPacket_eq_loop _ _ _ _ (by simp)]
      have hsplit : pre' ++ u :: v :: post = (pre' ++ [u]) ++ (v :: post) := by simp
      rw [hsplit, sendLoop_append]
      have hlast : ((p0 :: (pre' ++ [u])).getLast (by simp)) = u :=
        List.getLast_append_singleton (p0 :: pre')
      rw [hlast]
      have httl' : (pre'.length : ℤ) + 2 ≤ pkt.ttl := by
        simp only [List.length_cons, Nat.cast_add, Nat.cast_one] at httl
        omega
      have hn : min (pre' ++ [u]).length (addHop pkt p0).ttl.toNat = pre'.length + 1 := by
        show min (pre' ++ [u]).length pkt.ttl.toNat = pre'.length + 1
        have hl : (pre' ++ [u]).length = pre'.length + 1 := by simp
        rw [hl]
        omega
      have hr : sendLoop g p0 (pre' ++ [u]) (addHop pkt p0) 0
          = (0 + chargeSum g pkt.size p0 (pre' ++ [u]),
             ({ pkt with
                ttl := pkt.ttl - ((pre'.length + 1 : ℕ) : ℤ),
                hops := (pkt.hops ++ [p0]) ++ (pre' ++ [u]) } : Packet)) := by
        rw [sendLoop_eq, hn]
        have htake : (pre' ++ [u]).take (pre'.length + 1) = pre' ++ [u] := by
          have hlen : (pre' ++ [u]).length = pre'.length + 1 := by simp
          rw [← hlen, List.take_length]
        rw [htake]
        rfl
      rw [hr]
      rw [sendLoop_step _ _ _ _ _ _ (by
        show (0 : ℤ) < pkt.ttl - ((pre'.length + 1 : ℕ) : ℤ)
        push_cast
        omega)]
      have harg : addHop (decTTL ({ pkt with
            ttl := pkt.ttl - ((pre'.length + 1 : ℕ) : ℤ),
            hops := (pkt.hops ++ [p0]) ++ (pre' ++ [u]) } : Packet)) v
          = ({ pkt with
               ttl := pkt.ttl - ((p0 :: pre').length : ℕ) - 1,
               hops := (pkt.hops ++ ((p0 :: pre') ++ [u])) ++ [v] } : Packet) := by
        simp only [addHop, decTTL]
        congr 1
        simp
      have htot : 0 + chargeSum g pkt.size p0 (pre' ++ [u])
            + hopCost g ({ pkt with
                ttl := pkt.ttl - ((pre'.length + 1 : ℕ) : ℤ),
                hops := (pkt.hops ++ [p0]) ++ (pre' ++ [u]) } : Packet).size u v
          = chargeSum g pkt.size (((p0 :: pre') ++ [u]).headI)
              (((p0 :: pre') ++ [u]).tail) + 1e9 := by
        show 0 + chargeSum g pkt.size p0 (pre' ++ [u]) + hopCost g pkt.size u v
          = chargeSum g pkt.size p0 (pre' ++ [u]) + 1e9
        rw [hc]
        ring
      rw [harg, htot]
  refine ⟨hc, hmain, ?_⟩
  rw [hmain, sendLoop_eq]
  simp

/-- C10 counterexample: with a positive TTL that expires before the broken pair
`(u,v)` is reached, nothing is charged for that hop and `v` is never appended,
contrary to the claim's unconditional reading. -/
theorem c10_ttl_expiry_cex :
    "v" ∉ (sendPacket { adjacency := [("a", [("u", linkW)]), ("u", [])], directed_ := true }
        ["a", "u", "v"] { src := "s", dst := "d", ttl := 1, size := 0, hops := [] }).2.hops ∧
    (sendPacket { adjacency := [("a", [("u", linkW)]), ("u", [])], directed_ := true }
        ["a", "u", "v"] { src := "s", dst := "d", ttl := 1, size := 0, hops := [] }).1
      < 1e9 := by
  constructor
  · decide
  · have h : (sendPacket { adjacency := [("a", [("u", linkW)]), ("u", [])], directed_ := true }
        ["a", "u", "v"] { src := "s", dst := "d", ttl := 1, size := 0, hops := [] }).1
        = costForBytes linkW 0 := by
      simp [sendPacket, sendLoop, hopCost, getA, scanCost, addHop, decTTL]
    rw [h]
    norm_num [costForBytes, linkW]

/-- C10 witness: a path `["a","u","v"]` with TTL 5 where `u` has no entry
toward `v`; the broken hop is charged `1e9` and `v` still enters the history. -/
theorem c10_missing_edge_behavior_witness :
    hopCost { adjacency := [("a", [("u", linkW)]), ("u", [])], directed_ := true } 0 "u" "v"
        = 1e9 ∧
    "v" ∈ (sendPacket { adjacency := [("a", [("u", linkW)]), ("u", [])], directed_ := true }
        ["a", "u", "v"] { src := "s", dst := "d", ttl := 5, size := 0, hops := [] }).2.hops := by
  have h := c10_missing_edge_behavior
    { adjacency := [("a", [("u", linkW)]), ("u", [])], directed_ := true }
    ["a"] [] "u" "v" { src := "s", dst := "d", ttl := 5, size := 0, hops := [] }
    (by
      intro l hl q hq
      simp [getA] at hl
      subst hl
      simp at hq)
    (by decide)
  exact ⟨h.1, h.2.2⟩

/-! ## Dijkstra path reconstruction (`Dijkstra::getPathTo`) -/

/-- The backward walk of `getPathTo`: push nodes while `cur != start`, clear on
a missing parent entry.  Fuel `none` marks the diverging executions of the C++
loop (only possible on a cyclic parent map, which no run produces). -/
def walkParent [DecidableEq TNode] (parent : List (TNode × TNode)) (start : TNode) :
    ℕ → TNode → List TNode → Option (List TNode)
  | 0, _, _ => none
  | fuel + 1, cur, acc =>
      if cur = start then some (start :: acc)
      else
        match getA parent cur with
        | none => some []
        | some p => walkParent parent start fuel p (cur :: acc)

/-- `Dijkstra::getPathTo`: empty when the target has no recorded distance or an
infinite one, otherwise the backward walk over the parent map. -/
def getPathTo [DecidableEq TNode] (dist : List (TNode × WithTop ℚ))
    (parent : List (TNode × TNode)) (start target : TNode) : Option (List TNode) :=
  match getA dist target with
  | none => some []
  | some d => if d = ⊤ then some [] else walkParent parent start (parent.length + 1) target []

/-- Iterated parent lookup: the node reached after `k` backward steps. -/
def iterParent [DecidableEq TNode] (parent : List (TNode × TNode)) : ℕ → TNode → Option TNode
  | 0, v => some v
  | k + 1, v => (iterParent parent k v).bind (getA parent)

/-- The claim's broken-chain condition: walking `parent` backward from `target`
meets a node with no parent entry before ever reaching `start`. -/
def BrokenChain [DecidableEq TNode] (parent : List (TNode × TNode)) (start target : TNode) :
    Prop :=
  ∃ k x, iterParent parent k target = some x ∧
    (∀ j y, j ≤ k → iterParent parent j target = some y → y ≠ start) ∧
    getA parent x = none

theorem iterParent_succ_front [DecidableEq TNode] (parent : List (TNode × TNode)) (k : ℕ)
    (v : TNode) :
    iterParent parent (k + 1) v = (getA parent v).bind (iterParent parent k) := by
  induction k generalizing v with
  | zero =>
    show (some v).bind (getA parent) = (getA parent v).bind (iterParent parent 0)
    rcases h : getA parent v with _ | p <;> simp [h, iterParent]
  | succ k ih =>
    show (iterParent parent (k + 1) v).bind _ = _
    rw [ih]
    cases getA parent v with
    | none => rfl
    | some p => rfl

theorem iterParent_isSome_mono [DecidableEq TNode] (parent : List (TNode × TNode)) (j k : ℕ)
    (v : TNode) (hjk : j ≤ k) (h : (iterParent parent k v).isSome) :
    (iterParent parent j v).isSome := by
  induction k with
  | zero =>
    have : j = 0 := by omega
    subst this
    exact h
  | succ k ih =>
    rcases Nat.lt_or_ge j (k + 1) with hj | hj
    · apply ih (by omega)
      show (iterParent parent k v).isSome
      rcases hk : iterParent parent k v with _ | x
      · rw [show iterParent parent (k + 1) v = (iterParent parent k v).bind (getA parent) from rfl,
          hk] at h
        simp at h
      · simp
    · have : j = k + 1 := by omega
      subst this
      exact h

theorem iterParent_shift [DecidableEq TNode] (parent : List (TNode × TNode)) (j1 j2 : ℕ)
    (v : TNode) (h : iterParent parent j1 v = iterParent parent j2 v) :
    ∀ t, iterParent parent (j1 + t) v = iterParent parent (j2 + t) v := by
  intro t
  induction t with
  | zero => exact h
  | succ t ih =>
    show (iterParent parent (j1 + t) v).bind _ = (iterParent parent (j2 + t) v).bind _
    rw [ih]

theorem getA_isSome_mem_keys {α β : Type} [DecidableEq α] (l : List (α × β)) (v : α)
    (h : (getA l v).isSome) : v ∈ l.map Prod.fst := by
  induction l with
  | nil => simp [getA] at h
  | cons p rest ih =>
    by_cases hp : p.1 = v
    · simp [hp]
    · simp only [getA, if_neg hp] at h
      simp [ih h]

theorem nodup_keys_length_le {α β : Type} [DecidableEq α] (l : List (α × β)) (vs : List α)
    (hnd : vs.Nodup) (hkeys : ∀ v ∈ vs, (getA l v).isSome) : vs.length ≤ l.length := by
  have h1 : vs.toFinset.card = vs.length := List.toFinset_card_of_nodup hnd
  have h2 : vs.toFinset ⊆ (l.map Prod.fst).toFinset := by
    intro x hx
    exact List.mem_toFinset.mpr (getA_isSome_mem_keys l x (hkeys x (List.mem_toFinset.mp hx)))
  calc vs.length = vs.toFinset.card := h1.symm
    _ ≤ (l.map Prod.fst).toFinset.card := Finset.card_le_card h2
    _ ≤ (l.map Prod.fst).length := List.toFinset_card_le _
    _ = l.length := List.length_map _ _

theorem walkParent_broken [DecidableEq TNode] (parent : List (TNode × TNode)) (start : TNode) :
    ∀ (k : ℕ) (cur : TNode) (acc : List TNode) (fuel : ℕ) (x : TNode),
      iterParent parent k cur = some x →
      (∀ j y, j ≤ k → iterParent parent j cur = some y → y ≠ start) →
      getA parent x = none → k < fuel →
      walkParent parent start fuel cur acc = some [] := by
  intro k
  induction k with
  | zero =>
    intro cur acc fuel x hit hne hnone hf
    have hx : cur = x := by simpa [iterParent] using hit
    subst hx
    obtain ⟨f, rfl⟩ : ∃ f, fuel = f + 1 := ⟨fuel - 1, by omega⟩
    have hstart : cur ≠ start := hne 0 cur (by omega) (by simp [iterParent])
    simp [walkParent, hstart, hnone]
  | succ k ih =>
    intro cur acc fuel x hit hne hnone hf
    rw [iterParent_succ_front] at hit
    rcases hp : getA parent cur with _ | p
    · rw [hp] at hit
      simp at hit
    · rw [hp] at hit
      simp only [Option.some_bind] at hit
      obtain ⟨f, rfl⟩ : ∃ f, fuel = f + 1 := ⟨fuel - 1, by omega⟩
      have hstart : cur ≠ start := hne 0 cur (by omega) (by simp [iterParent])
      simp only [walkParent, if_neg hstart, hp]
      refine ih p (cur :: acc) f x hit ?_ hnone (by omega)
      intro j y hj hy
      refine hne (j + 1) y (by omega) ?_
      rw [iterParent_succ_front, hp]
      simpa using hy

theorem broken_chain_fuel [DecidableEq TNode] (parent : List (TNode × TNode))
    (start target : TNode) (h : BrokenChain parent start target) :
    ∀ acc, walkParent parent start (parent.length + 1) target acc = some [] := by
  classical
  obtain ⟨k0, x0, hit0, hne0, hnone0⟩ := h
  have hex : ∃ k, ∃ x, iterParent parent k target = some x ∧ getA parent x = none :=
    ⟨k0, x0, hit0, hnone0⟩
  let k := Nat.find hex
  obtain ⟨x, hit, hnone⟩ := Nat.find_spec hex
  have hkk0 : k ≤ k0 := Nat.find_le ⟨x0, hit0, hnone0⟩
  have hmono : ∀ j, j ≤ k → (iterParent parent j target).isSome :=
    fun j hj => iterParent_isSome_mono parent j k target hj (by simp [hit])
  have hbound : k ≤ parent.length := by
    have hinj : ∀ j1 ∈ List.range k, ∀ j2 ∈ List.range k,
        (iterParent parent j1 target).getD target = (iterParent parent j2 target).getD target →
        j1 = j2 := by
      intro j1 hj1 j2 hj2 heq
      simp only [List.mem_range] at hj1 hj2
      by_contra hne12
      rcases Nat.lt_or_ge j1 j2 with hlt | hge
      · obtain ⟨y1, hy1⟩ := Option.isSome_iff_exists.mp (hmono j1 (by omega))
        obtain ⟨y2, hy2⟩ := Option.isSome_iff_exists.mp (hmono j2 (by omega))
        rw [hy1, hy2] at heq
        simp at heq
        subst heq
        have hshift := iterParent_shift parent j1 j2 target (by rw [hy1, hy2]) (k - j2)
        have : iterParent parent (j1 + (k - j2)) target = some x := by
          rw [hshift, show j2 + (k - j2) = k from by omega, hit]
        have hQ : ∃ x, iterParent parent (j1 + (k - j2)) target = some x ∧
            getA parent x = none := ⟨x, this, hnone⟩
        exact absurd hQ (Nat.find_min hex (by omega))
      · rcases Nat.lt_or_ge j2 j1 with hlt2 | hge2
        · obtain ⟨y1, hy1⟩ := Option.isSome_iff_exists.mp (hmono j1 (by omega))
          obtain ⟨y2, hy2⟩ := Option.isSome_iff_exists.mp (hmono j2 (by omega))
          rw [hy1, hy2] at heq
          simp at heq
          subst heq
          have hshift := iterParent_shift parent j2 j1 target (by rw [hy1, hy2]) (k - j1)
          have : iterParent parent (j2 + (k - j1)) target = some x := by
            rw [hshift, show j1 + (k - j1) = k from by omega, hit]
          have hQ : ∃ x, iterParent parent (j2 + (k - j1)) target = some x ∧
              getA parent x = none := ⟨x, this, hnone⟩
          exact absurd hQ (Nat.find_min hex (by omega))
        · omega
    have hnd : ((List.range k).map
        (fun j => (iterParent parent j target).getD target)).Nodup :=
      (List.nodup_range k).map_on hinj
    have hkeys : ∀ v ∈ (List.range k).map
        (fun j => (iterParent parent j target).getD target), (getA parent v).isSome := by
      intro v hv
      simp only [List.mem_map, List.mem_range] at hv
      obtain ⟨j, hj, rfl⟩ := hv
      obtain ⟨y, hy⟩ := Option.isSome_iff_exists.mp (hmono j (by omega))
      have hnext := hmono (j + 1) (by omega)
      have heq : iterParent parent (j + 1) target = getA parent y := by
        show (iterParent parent j target).bind (getA parent) = _
        rw [hy]
        rfl
      rw [heq] at hnext
      rw [hy]
      simpa using hnext
    have := nodup_keys_length_le parent _ hnd hkeys
    simpa using this
  intro acc
  exact walkParent_broken parent start k target acc (parent.length + 1) x hit
    (fun j y hj hy => hne0 j y (by omega) hy) hnone (by omega)

theorem walkParent_shape [DecidableEq TNode] (parent : List (TNode × TNode)) (start : TNode) :
    ∀ (fuel : ℕ) (cur : TNode) (acc res : List TNode),
      walkParent parent start fuel cur acc = some res → res ≠ [] →
      res.head? = some start ∧ res.getLast? = (cur :: acc).getLast? := by
  intro fuel
  induction fuel with
  | zero => intro cur acc res h; simp [walkParent] at h
  | succ f ih =>
    intro cur acc res h hne
    by_cases hs : cur = start
    · rw [walkParent, if_pos hs] at h
      obtain rfl : start :: acc = res := by simpa using h
      subst hs
      exact ⟨rfl, rfl⟩
    · rw [walkParent, if_neg hs] at h
      rcases hp : getA parent cur with _ | p
      · rw [hp] at h
        simp at h
        exact absurd h hne
      · rw [hp] at h
        have := ih p (cur :: acc) res h hne
        exact ⟨this.1, by rw [this.2, List.getLast?_cons_cons]⟩

/-- C2: `getPathTo` returns the empty sequence when the target has no recorded
distance or an infinite one, and when the backward parent walk meets a node
with no parent entry before reaching `start`; whenever it returns a non-empty
sequence, that sequence begins with `start` and ends with `target`.  This holds
for arbitrary `dist`/`parent` states, hence for every state after a run. -/
theorem c2_getPathTo_contract [DecidableEq TNode] (dist : List (TNode × WithTop ℚ))
    (parent : List (TNode × TNode)) (start target : TNode) :
    ((getA dist target = none ∨ getA dist target = some ⊤) →
      getPathTo dist parent start target = some []) ∧
    (BrokenChain parent start target → getPathTo dist parent start target = some []) ∧
    (∀ res, getPathTo dist parent start target = some res → res ≠ [] →
      res.head? = some start ∧ res.getLast? = some target) := by
  refine ⟨?_, ?_, ?_⟩
  · rintro (h | h) <;> simp [getPathTo, h]
  · intro h
    rcases hd : getA dist target with _ | d
    · simp [getPathTo, hd]
    · by_cases ht : d = ⊤
      · simp [getPathTo, hd, ht]
      · simp only [getPathTo, hd, if_neg ht]
        exact broken_chain_fuel parent start target h []
  · intro res h hne
    rcases hd : getA dist target with _ | d
    · rw [getPathTo, hd] at h
      obtain rfl : ([] : List TNode) = res := by simpa using h
      exact absurd rfl hne
    · by_cases ht : d = ⊤
      · rw [getPathTo, hd] at h
        simp only [if_pos ht] at h
        obtain rfl : ([] : List TNode) = res := by simpa using h
        exact absurd rfl hne
      · rw [getPathTo, hd] at h
        simp only [if_neg ht] at h
        have := walkParent_shape parent start (parent.length + 1) target [] res h hne
        exact ⟨this.1, by rw [this.2]; rfl⟩

/-- C2 witness: a two-node chain state where the path `1 → 2` is reconstructed,
and an unrecorded target yields the empty sequence. -/
theorem c2_getPathTo_contract_witness :
    getPathTo [((1 : ℕ), ((0 : ℚ) : WithTop ℚ)), (2, ((5 : ℚ) : WithTop ℚ))] [(2, 1)] 1 3
        = some [] ∧
    ([1, 2].head? = some (1 : ℕ) ∧ [1, 2].getLast? = some (2 : ℕ)) := by
  constructor
  · exact (c2_getPathTo_contract
      [((1 : ℕ), ((0 : ℚ) : WithTop ℚ)), (2, ((5 : ℚ) : WithTop ℚ))] [(2, 1)] 1 3).1
      (Or.inl rfl)
  · exact (c2_getPathTo_contract
      [((1 : ℕ), ((0 : ℚ) : WithTop ℚ)), (2, ((5 : ℚ) : WithTop ℚ))] [(2, 1)] 1 2).2.2
      [1, 2] (by decide) (by decide)

/-! ## Traversal engines (`BFS::run`, `DFS::run`) -/

/-- The inner neighbor loop of BFS: mark-and-enqueue each unvisited neighbor. -/
def bfsEnq [DecidableEq TNode] : List TNode → List TNode → List TNode →
    List TNode × List TNode
  | visited, queue, [] => (visited, queue)
  | visited, queue, n :: rest =>
      if n ∈ visited then bfsEnq visited queue rest
      else bfsEnq (visited ++ [n]) (queue ++ [n]) rest

/-- The BFS loop: pop, emit, enqueue unvisited neighbors.  Fuel exhaustion with
a nonempty queue yields `none`; the fuel below is proved sufficient. -/
def bfsAux [DecidableEq TNode] (g : Graph TNode TEdge) :
    ℕ → List TNode → List TNode → List TNode → Option (List TNode)
  | _, [], _, out => some out
  | 0, _ :: _, _, _ => none
  | fuel + 1, u :: q, visited, out =>
      bfsAux g fuel (bfsEnq visited q (getNeighbors g u)).2
        (bfsEnq visited q (getNeighbors g u)).1 (out ++ [u])

/-- Every node identity that can ever enter a traversal: the start node, the
adjacency keys and every adjacency target. -/
def candidates (g : Graph TNode TEdge) (start : TNode) : List TNode :=
  start :: (g.adjacency.map Prod.fst ++ g.adjacency.flatMap (fun p => p.2.map Prod.fst))

/-- `BFS::run`, returning the emission order. -/
def bfsRun [DecidableEq TNode] (g : Graph TNode TEdge) (start : TNode) : Option (List TNode) :=
  bfsAux g (2 * (candidates g start).length + 2) [start] [start] []

/-- The DFS loop: pop, emit if unvisited, push all neighbors (the last-pushed
neighbor ends up on top, so neighbors are pushed in reverse onto the list-model
stack). -/
def dfsAux [DecidableEq TNode] (g : Graph TNode TEdge) :
    ℕ → List TNode → List TNode → List TNode → Option (List TNode)
  | _, [], _, out => some out
  | 0, _ :: _, _, _ => none
  | fuel + 1, u :: st, visited, out =>
      if u ∈ visited then dfsAux g fuel st visited out
      else dfsAux g fuel ((getNeighbors g u).reverse ++ st) (visited ++ [u]) (out ++ [u])

/-- Weight of one DFS stack visit: the emission itself plus its pushes. -/
def visitWeight [DecidableEq TNode] (g : Graph TNode TEdge) (v : TNode) : ℕ :=
  1 + (getNeighbors g v).length

/-- Total weight of the yet-unvisited candidates. -/
def unvisWeight [DecidableEq TNode] (f : TNode → ℕ) (cand vis : List TNode) : ℕ :=
  ((cand.filter (fun v => decide (v ∉ vis))).map f).sum

/-- `DFS::run`, returning the emission order. -/
def dfsRun [DecidableEq TNode] (g : Graph TNode TEdge) (start : TNode) : Option (List TNode) :=
  dfsAux g (1 + unvisWeight (visitWeight g) (candidates g start) []) [start] [] []

theorem unvisWeight_mono [DecidableEq TNode] (f : TNode → ℕ) (cand : List TNode) :
    ∀ (vis vis' : List TNode), (∀ x, x ∈ vis → x ∈ vis') →
      unvisWeight f cand vis' ≤ unvisWeight f cand vis := by
  induction cand with
  | nil => intro vis vis' h; exact le_refl 0
  | cons x rest ih =>
    intro vis vis' h
    by_cases hx' : x ∈ vis'
    · have h1 : unvisWeight f (x :: rest) vis' = unvisWeight f rest vis' := by
        simp [unvisWeight, hx']
      rw [h1]
      by_cases hx : x ∈ vis
      · have h2 : unvisWeight f (x :: rest) vis = unvisWeight f rest vis := by
          simp [unvisWeight, hx]
        rw [h2]
        exact ih vis vis' h
      · have h2 : unvisWeight f (x :: rest) vis = f x + unvisWeight f rest vis := by
          simp [unvisWeight, hx]
        rw [h2]
        exact le_add_of_nonneg_of_le (Nat.zero_le _) (ih vis vis' h)
    · have hx : x ∉ vis := fun hc => hx' (h x hc)
      have h1 : unvisWeight f (x :: rest) vis' = f x + unvisWeight f rest vis' := by
        simp [unvisWeight, hx']
      have h2 : unvisWeight f (x :: rest) vis = f x + unvisWeight f rest vis := by
        simp [unvisWeight, hx]
      rw [h1, h2]
      exact Nat.add_le_add_left (ih vis vis' h) _

theorem unvisWeight_drop [DecidableEq TNode] (f : TNode → ℕ) (cand : List TNode) :
    ∀ (vis : List TNode) (u : TNode), u ∈ cand → u ∉ vis →
      unvisWeight f cand (vis ++ [u]) + f u ≤ unvisWeight f cand vis := by
  induction cand with
  | nil => intro vis u hu; simp at hu
  | cons x rest ih =>
    intro vis u hu hvis
    by_cases hxu : x = u
    · subst hxu
      have h1 : unvisWeight f (x :: rest) (vis ++ [x]) = unvisWeight f rest (vis ++ [x]) := by
        simp [unvisWeight]
      have h2 : unvisWeight f (x :: rest) vis = f x + unvisWeight f rest vis := by
        simp [unvisWeight, hvis]
      rw [h1, h2, Nat.add_comm]
      exact Nat.add_le_add_left
        (unvisWeight_mono f rest vis (vis ++ [x]) (fun y hy => by simp [hy])) _
    · have hu' : u ∈ rest := by
        rcases List.mem_cons.mp hu with h | h
        · exact absurd h.symm hxu
        · exact h
      by_cases hx : x ∈ vis
      · have h1 : unvisWeight f (x :: rest) (vis ++ [u]) = unvisWeight f rest (vis ++ [u]) := by
          simp [unvisWeight, hx]
        have h2 : unvisWeight f (x :: rest) vis = unvisWeight f rest vis := by
          simp [unvisWeight, hx]
        rw [h1, h2]
        exact ih vis u hu' hvis
      · have hxvu : x ∉ vis ++ [u] := by
          simp only [List.mem_append, List.mem_singleton]
          rintro (h | h)
          · exact hx h
          · exact hxu h
        have h1 : unvisWeight f (x :: rest) (vis ++ [u])
            = f x + unvisWeight f rest (vis ++ [u]) := by
          simp [unvisWeight, hx, hxu]
        have h2 : unvisWeight f (x :: rest) vis = f x + unvisWeight f rest vis := by
          simp [unvisWeight, hx]
        rw [h1, h2, Nat.add_assoc]
        exact Nat.add_le_add_left (ih vis u hu' hvis) _

theorem getA_mem {α β : Type} [DecidableEq α] (l : List (α × β)) (k : α) (v : β)
    (h : getA l k = some v) : (k, v) ∈ l := by
  induction l with
  | nil => simp [getA] at h
  | cons p rest ih =>
    by_cases hp : p.1 = k
    · simp only [getA, if_pos hp] at h
      have hv : p.2 = v := by simpa using h
      have : p = (k, v) := by
        rcases p with ⟨a, b⟩
        simp only [Prod.mk.injEq]
        exact ⟨hp, hv⟩
      simp [this]
    · simp only [getA, if_neg hp] at h
      simp [ih h]

theorem mem_candidates_of_neighbor [DecidableEq TNode] (g : Graph TNode TEdge) (start : TNode)
    (u x : TNode) (hx : x ∈ getNeighbors g u) : x ∈ candidates g start := by
  rw [getNeighbors_eq_adjOf] at hx
  unfold adjOf at hx
  rcases hl : getA g.adjacency u with _ | l
  · rw [hl] at hx
    simp at hx
  · rw [hl] at hx
    have hmem := getA_mem g.adjacency u l hl
    simp only [candidates, List.mem_cons, List.mem_append, List.mem_flatMap]
    exact Or.inr (Or.inr ⟨(u, l), hmem, hx⟩)

theorem unvisWeight_le_two [DecidableEq TNode] (cand vis : List TNode) :
    unvisWeight (fun _ => 2) cand vis ≤ 2 * cand.length := by
  unfold unvisWeight
  have h1 : ∀ l : List TNode, ((l.map (fun _ => 2)).sum : ℕ) = 2 * l.length := by
    intro l
    induction l with
    | nil => simp
    | cons x rest ih => simp [ih]; omega
  rw [h1]
  have := List.length_filter_le (fun v => decide (v ∉ vis)) cand
  omega

theorem bfsEnq_eq [DecidableEq TNode] :
    ∀ (ns visited queue : List TNode), ∃ added,
      bfsEnq visited queue ns = (visited ++ added, queue ++ added) ∧
      added.Nodup ∧ (∀ x ∈ added, x ∉ visited ∧ x ∈ ns) := by
  intro ns
  induction ns with
  | nil => intro visited queue; exact ⟨[], by simp [bfsEnq], by simp, by simp⟩
  | cons n rest ih =>
    intro visited queue
    by_cases hn : n ∈ visited
    · obtain ⟨added, heq, hnd, hprop⟩ := ih visited queue
      refine ⟨added, by simp [bfsEnq, hn, heq], hnd, ?_⟩
      intro x hx
      exact ⟨(hprop x hx).1, by simp [(hprop x hx).2]⟩
    · obtain ⟨added, heq, hnd, hprop⟩ := ih (visited ++ [n]) (queue ++ [n])
      refine ⟨n :: added, ?_, ?_, ?_⟩
      · simp only [bfsEnq, if_neg hn, heq]
        simp
      · refine List.Nodup.cons ?_ hnd
        intro hc
        have := (hprop n hc).1
        simp at this
      · intro x hx
        rcases List.mem_cons.mp hx with rfl | hx'
        · exact ⟨hn, by simp⟩
        · have h1 := (hprop x hx').1
          have h2 := (hprop x hx').2
          constructor
          · intro hc
            exact h1 (by simp [hc])
          · simp [h2]

theorem bfsEnq_measure [DecidableEq TNode] (cand : List TNode) :
    ∀ (ns visited queue : List TNode), (∀ n ∈ ns, n ∈ cand) →
      unvisWeight (fun _ => 2) cand (bfsEnq visited queue ns).1
          + (bfsEnq visited queue ns).2.length
        ≤ unvisWeight (fun _ => 2) cand visited + queue.length := by
  intro ns
  induction ns with
  | nil => intro visited queue h; simp [bfsEnq]
  | cons n rest ih =>
    intro visited queue h
    by_cases hn : n ∈ visited
    · simp only [bfsEnq, if_neg, if_pos hn]
      exact ih visited queue (fun x hx => h x (by simp [hx]))
    · simp only [bfsEnq, if_neg hn]
      have h1 := ih (visited ++ [n]) (queue ++ [n]) (fun x hx => h x (by simp [hx]))
      have h2 : unvisWeight (fun _ => 2) cand (visited ++ [n]) + 2
          ≤ unvisWeight (fun _ => 2) cand visited :=
        unvisWeight_drop (fun _ => 2) cand visited n (h n (by simp)) hn
      simp only [List.length_append, List.length_singleton] at h1
      omega

theorem bfsAux_main [DecidableEq TNode] (g : Graph TNode TEdge) (cand : List TNode)
    (hcand : ∀ (u : TNode), ∀ n ∈ getNeighbors g u, n ∈ cand) :
    ∀ (fuel : ℕ) (queue visited out : List TNode),
      unvisWeight (fun _ => 2) cand visited + queue.length ≤ fuel →
      (out ++ queue).Nodup →
      (∀ x ∈ out ++ queue, x ∈ visited) →
      ∃ rest, bfsAux g fuel queue visited out = some (out ++ rest) ∧ (out ++ rest).Nodup := by
  intro fuel
  induction fuel with
  | zero =>
    intro queue visited out hm hnd hvis
    have hq : queue = [] := by
      cases queue with
      | nil => rfl
      | cons a q => simp at hm
    subst hq
    exact ⟨[], by simp [bfsAux], by simpa using hnd⟩
  | succ fuel ih =>
    intro queue visited out hm hnd hvis
    cases queue with
    | nil => exact ⟨[], by simp [bfsAux], by simpa using hnd⟩
    | cons u q =>
      obtain ⟨added, heq, hadnd, hadprop⟩ := bfsEnq_eq (getNeighbors g u) visited q
      have hstep : bfsAux g (fuel + 1) (u :: q) visited out
          = bfsAux g fuel (q ++ added) (visited ++ added) (out ++ [u]) := by
        show bfsAux g fuel (bfsEnq visited q (getNeighbors g u)).2
          (bfsEnq visited q (getNeighbors g u)).1 (out ++ [u])
          = _
        rw [heq]
      have hmeas := bfsEnq_measure cand (getNeighbors g u) visited q (hcand u)
      rw [heq] at hmeas
      simp only [List.length_append] at hmeas
      have hm' : unvisWeight (fun _ => 2) cand (visited ++ added)
          + (q ++ added).length ≤ fuel := by
        simp only [List.length_append]
        simp only [List.length_cons] at hm
        omega
      have hnd' : ((out ++ [u]) ++ (q ++ added)).Nodup := by
        have hre : (out ++ [u]) ++ (q ++ added) = (out ++ u :: q) ++ added := by
          simp
        rw [hre]
        refine List.Nodup.append hnd hadnd ?_
        intro x hx1 hx2
        exact (hadprop x hx2).1 (hvis x hx1)
      have hvis' : ∀ x ∈ (out ++ [u]) ++ (q ++ added), x ∈ visited ++ added := by
        intro x hx
        simp only [List.mem_append, List.mem_singleton] at hx
        rcases hx with (hx | hx) | (hx | hx)
        · exact List.mem_append_left _ (hvis x (by simp [hx]))
        · exact List.mem_append_left _ (hvis x (by simp [hx]))
        · exact List.mem_append_left _ (hvis x (by simp [hx]))
        · exact List.mem_append_right _ hx
      obtain ⟨rest2, hrun, hnd2⟩ := ih (q ++ added) (visited ++ added) (out ++ [u])
        hm' hnd' hvis'
      refine ⟨u :: rest2, ?_, ?_⟩
      · rw [hstep, hrun]
        simp
      · have : out ++ u :: rest2 = (out ++ [u]) ++ rest2 := by simp
        rw [this]
        exact hnd2

theorem dfsAux_main [DecidableEq TNode] (g : Graph TNode TEdge) (cand : List TNode)
    (hcand : ∀ (u : TNode), ∀ n ∈ getNeighbors g u, n ∈ cand) :
    ∀ (fuel : ℕ) (stack visited out : List TNode),
      stack.length + unvisWeight (visitWeight g) cand visited ≤ fuel →
      (∀ x ∈ stack, x ∈ cand) →
      out.Nodup →
      (∀ x, x ∈ out ↔ x ∈ visited) →
      ∃ rest, dfsAux g fuel stack visited out = some (out ++ rest) ∧ (out ++ rest).Nodup := by
  intro fuel
  induction fuel with
  | zero =>
    intro stack visited out hm hst hnd hiff
    have hq : stack = [] := by
      cases stack with
      | nil => rfl
      | cons a st => simp at hm
    subst hq
    exact ⟨[], by simp [dfsAux], by simpa using hnd⟩
  | succ fuel ih =>
    intro stack visited out hm hst hnd hiff
    cases stack with
    | nil => exact ⟨[], by simp [dfsAux], by simpa using hnd⟩
    | cons u st =>
      by_cases hu : u ∈ visited
      · have hstep : dfsAux g (fuel + 1) (u :: st) visited out
            = dfsAux g fuel st visited out := by
          simp [dfsAux, hu]
        obtain ⟨rest, hrun, hnd2⟩ := ih st visited out
          (by simp only [List.length_cons] at hm; omega)
          (fun x hx => hst x (by simp [hx])) hnd hiff
        exact ⟨rest, by rw [hstep, hrun], hnd2⟩
      · have hstep : dfsAux g (fuel + 1) (u :: st) visited out
            = dfsAux g fuel ((getNeighbors g u).reverse ++ st) (visited ++ [u])
                (out ++ [u]) := by
          simp [dfsAux, hu]
        have hdrop : unvisWeight (visitWeight g) cand (visited ++ [u]) + visitWeight g u
            ≤ unvisWeight (visitWeight g) cand visited :=
          unvisWeight_drop (visitWeight g) cand visited u (hst u (by simp)) hu
        have hm' : ((getNeighbors g u).reverse ++ st).length
            + unvisWeight (visitWeight g) cand (visited ++ [u]) ≤ fuel := by
          simp only [List.length_append, List.length_reverse, List.length_cons] at hm ⊢
          have hw : visitWeight g u = 1 + (getNeighbors g u).length := rfl
          omega
        have hst' : ∀ x ∈ (getNeighbors g u).reverse ++ st, x ∈ cand := by
          intro x hx
          rcases List.mem_append.mp hx with hx | hx
          · exact hcand u x (List.mem_reverse.mp hx)
          · exact hst x (by simp [hx])
        have hnd' : (out ++ [u]).Nodup := by
          refine List.Nodup.append hnd (List.nodup_singleton u) ?_
          intro x hx1 hx2
          simp only [List.mem_singleton] at hx2
          subst hx2
          exact hu ((hiff x).mp hx1)
        have hiff' : ∀ x, x ∈ out ++ [u] ↔ x ∈ visited ++ [u] := by
          intro x
          simp [hiff x]
        obtain ⟨rest2, hrun, hnd2⟩ := ih ((getNeighbors g u).reverse ++ st)
          (visited ++ [u]) (out ++ [u]) hm' hst' hnd' hiff'
        refine ⟨u :: rest2, ?_, ?_⟩
        · rw [hstep, hrun]
          simp
        · have : out ++ u :: rest2 = (out ++ [u]) ++ rest2 := by simp
          rw [this]
          exact hnd2

/-- C9: for every finite graph and every start node (even one absent from the
adjacency map) both traversals terminate, emit each node at most once, emit the
start node first, and an isolated start node yields exactly the single-element
visitation. -/
theorem c9_traversal_contract [DecidableEq TNode] (g : Graph TNode TEdge) (start : TNode) :
    (∃ out, bfsRun g start = some out ∧ out.Nodup ∧ out.head? = some start ∧
      (getNeighbors g start = [] → out = [start])) ∧
    (∃ out, dfsRun g start = some out ∧ out.Nodup ∧ out.head? = some start ∧
      (getNeighbors g start = [] → out = [start])) := by
  have hcand : ∀ (u : TNode), ∀ n ∈ getNeighbors g u, n ∈ candidates g start :=
    fun u n hn => mem_candidates_of_neighbor g start u n hn
  constructor
  · obtain ⟨added, heq, hadnd, hadprop⟩ := bfsEnq_eq (getNeighbors g start) [start] []
    have hstep : bfsRun g start
        = bfsAux g (2 * (candidates g start).length + 1) ([] ++ added)
            ([start] ++ added) ([] ++ [start]) := by
      show bfsAux g (2 * (candidates g start).length + 1 + 1) [start] [start] [] = _
      show bfsAux g (2 * (candidates g start).length + 1)
        (bfsEnq [start] [] (getNeighbors g start)).2
        (bfsEnq [start] [] (getNeighbors g start)).1 ([] ++ [start]) = _
      rw [heq]
    have hmeas := bfsEnq_measure (candidates g start) (getNeighbors g start) [start] []
      (hcand start)
    rw [heq] at hmeas
    have hle := unvisWeight_le_two (candidates g start) [start]
    have hm : unvisWeight (fun _ => 2) (candidates g start) ([start] ++ added)
        + ([] ++ added).length ≤ 2 * (candidates g start).length + 1 := by
      simp only [List.nil_append, List.length_nil] at hmeas ⊢
      omega
    have hnd : (([] ++ [start]) ++ ([] ++ added)).Nodup := by
      simp only [List.nil_append]
      refine List.Nodup.append (List.nodup_singleton start) hadnd ?_
      intro x hx1 hx2
      simp only [List.mem_singleton] at hx1
      subst hx1
      exact (hadprop x hx2).1 (by simp)
    have hvis : ∀ x ∈ ([] ++ [start]) ++ ([] ++ added), x ∈ [start] ++ added := by
      intro x hx
      simpa using hx
    obtain ⟨rest, hrun, hnd2⟩ := bfsAux_main g (candidates g start) hcand
      (2 * (candidates g start).length + 1) ([] ++ added) ([start] ++ added)
      ([] ++ [start]) hm hnd hvis
    refine ⟨start :: rest, ?_, ?_, rfl, ?_⟩
    · rw [hstep, hrun]
      simp
    · simpa using hnd2
    · intro hiso
      have hadded : added = [] := by
        have := bfsEnq_eq (getNeighbors g start) [start] []
        rw [hiso] at heq
        have heq2 : ([start], ([] : List TNode)) = ([start] ++ added, [] ++ added) := by
          rw [← heq]
          rfl
        have := congrArg Prod.snd heq2
        simpa using this.symm
      subst hadded
      have hdone : bfsAux g (2 * (candidates g start).length + 1) ([] ++ ([] : List TNode))
          ([start] ++ []) ([] ++ [start]) = some [start] := by
        simp [bfsAux]
      rw [hdone] at hrun
      have h2 : [start] = [] ++ [start] ++ rest := Option.some.inj hrun
      have hrest : rest = [] := by
        simp at h2
        exact h2
      simp [hrest]
  · obtain ⟨F, hF⟩ : ∃ F, 1 + unvisWeight (visitWeight g) (candidates g start) [] = F + 1 :=
      ⟨unvisWeight (visitWeight g) (candidates g start) [], by omega⟩
    have hstep : dfsRun g start
        = dfsAux g F ((getNeighbors g start).reverse ++ []) ([] ++ [start]) ([] ++ [start]) := by
      show dfsAux g (1 + unvisWeight (visitWeight g) (candidates g start) [])
        [start] [] [] = _
      rw [hF]
      simp [dfsAux]
    have hdrop : unvisWeight (visitWeight g) (candidates g start) ([] ++ [start])
        + visitWeight g start ≤ unvisWeight (visitWeight g) (candidates g start) [] :=
      unvisWeight_drop (visitWeight g) (candidates g start) [] start (by simp [candidates])
        (by simp)
    have hm : ((getNeighbors g start).reverse ++ []).length
        + unvisWeight (visitWeight g) (candidates g start) ([] ++ [start]) ≤ F := by
      have hw : visitWeight g start = 1 + (getNeighbors g start).length := rfl
      simp only [List.append_nil, List.length_reverse, List.nil_append]
      simp only [List.nil_append] at hdrop
      omega
    have hst : ∀ x ∈ (getNeighbors g start).reverse ++ [], x ∈ candidates g start := by
      intro x hx
      simp only [List.append_nil] at hx
      exact hcand start x (List.mem_reverse.mp hx)
    obtain ⟨rest, hrun, hnd2⟩ := dfsAux_main g (candidates g start) hcand F
      ((getNeighbors g start).reverse ++ []) ([] ++ [start]) ([] ++ [start]) hm hst
      (by simp) (by simp)
    refine ⟨start :: rest, ?_, ?_, rfl, ?_⟩
    · rw [hstep, hrun]
      simp
    · simpa using hnd2
    · intro hiso
      rw [hiso] at hrun
      have hdone : dfsAux g F (([] : List TNode).reverse ++ []) ([] ++ [start]) ([] ++ [start])
          = some [start] := by
        simp [dfsAux]
      rw [hdone] at hrun
      have h2 : [start] = [] ++ [start] ++ rest := Option.some.inj hrun
      have hrest : rest = [] := by
        simp at h2
        exact h2
      simp [hrest]

/-- C9 witness: both traversals on a one-node graph with an isolated start. -/
theorem c9_traversal_contract_witness :
    bfsRun ({ adjacency := [((1 : ℕ), ([] : List (ℕ × ℚ)))], directed_ := true } : Graph ℕ ℚ) 1
        = some [1] ∧
    dfsRun ({ adjacency := [((1 : ℕ), ([] : List (ℕ × ℚ)))], directed_ := true } : Graph ℕ ℚ) 1
        = some [1] := by
  obtain ⟨hb, hd⟩ := c9_traversal_contract
    ({ adjacency := [((1 : ℕ), ([] : List (ℕ × ℚ)))], directed_ := true } : Graph ℕ ℚ) 1
  obtain ⟨outb, hrunb, _, _, hisob⟩ := hb
  obtain ⟨outd, hrund, _, _, hisod⟩ := hd
  constructor
  · rw [hrunb, hisob (by decide)]
  · rw [hrund, hisod (by decide)]

/-! ## Dijkstra engine (`Dijkstra::run`) -/

/-- Model of `WeightedEdge`. -/
structure WeightedEdge where
  weight : ℚ
deriving DecidableEq

/-- The mutable state of a `Dijkstra` instance plus the local priority queue of
`run`: `dist`, `parent` and the multiset of queued `(distance, node)` pairs. -/
structure DijkstraState (TNode : Type) where
  dist : List (TNode × WithTop ℚ)
  parent : List (TNode × TNode)
  pq : List (ℚ × TNode)

/-- Read of `dist[v]` through `std::map::operator[]`: a missing key reads as a
default-constructed `0.0` (never exercised on well-formed graphs, whose keys
are all initialized to infinity). -/
def distGet [DecidableEq TNode] (dist : List (TNode × WithTop ℚ)) (v : TNode) : WithTop ℚ :=
  (getA dist v).getD ((0 : ℚ) : WithTop ℚ)

/-- Extraction from the min-heap `priority_queue<pair<double,TNode>, …,
greater<…>>`: the lexicographically least pair and the remaining entries. -/
def popMin [LinearOrder TNode] : List (ℚ × TNode) → Option ((ℚ × TNode) × List (ℚ × TNode))
  | [] => none
  | x :: xs =>
      match popMin xs with
      | none => some (x, [])
      | some (m, rest) =>
          if x.1 < m.1 ∨ (x.1 = m.1 ∧ x.2 ≤ m.2) then some (x, xs) else some (m, x :: rest)

theorem popMin_none_iff [LinearOrder TNode] (l : List (ℚ × TNode)) :
    popMin l = none ↔ l = [] := by
  cases l with
  | nil => simp [popMin]
  | cons x xs =>
    simp only [popMin]
    rcases popMin xs with _ | ⟨m, rest⟩
    · simp
    · by_cases h : x.1 < m.1 ∨ (x.1 = m.1 ∧ x.2 ≤ m.2) <;> simp [h]

theorem popMin_perm [LinearOrder TNode] :
    ∀ (l : List (ℚ × TNode)) (m : ℚ × TNode) (rest : List (ℚ × TNode)),
      popMin l = some (m, rest) → (m :: rest).Perm l := by
  intro l
  induction l with
  | nil => intro m rest h; simp [popMin] at h
  | cons x xs ih =>
    intro m rest h
    simp only [popMin] at h
    rcases hxs : popMin xs with _ | ⟨m', rest'⟩
    · rw [hxs] at h
      have hx : xs = [] := (popMin_none_iff xs).mp hxs
      simp only [Option.some.injEq, Prod.mk.injEq] at h
      rw [← h.1, ← h.2, hx]
    · rw [hxs] at h
      by_cases hc : x.1 < m'.1 ∨ (x.1 = m'.1 ∧ x.2 ≤ m'.2)
      · simp only [if_pos hc, Option.some.injEq, Prod.mk.injEq] at h
        rw [← h.1, ← h.2]
      · simp only [if_neg hc, Option.some.injEq, Prod.mk.injEq] at h
        have hperm := ih m' rest' hxs
        rw [← h.1, ← h.2]
        exact (List.Perm.swap x m' rest').trans (hperm.cons x)

theorem popMin_min [LinearOrder TNode] :
    ∀ (l : List (ℚ × TNode)) (m : ℚ × TNode) (rest : List (ℚ × TNode)),
      popMin l = some (m, rest) → ∀ y ∈ l, m.1 ≤ y.1 := by
  intro l
  induction l with
  | nil => intro m rest h; simp [popMin] at h
  | cons x xs ih =>
    intro m rest h y hy
    simp only [popMin] at h
    rcases hxs : popMin xs with _ | ⟨m', rest'⟩
    · rw [hxs] at h
      have hx : xs = [] := (popMin_none_iff xs).mp hxs
      simp only [Option.some.injEq, Prod.mk.injEq] at h
      subst hx
      rcases List.mem_cons.mp hy with rfl | hy'
      · rw [← h.1]
      · simp at hy'
    · rw [hxs] at h
      by_cases hc : x.1 < m'.1 ∨ (x.1 = m'.1 ∧ x.2 ≤ m'.2)
      · simp only [if_pos hc, Option.some.injEq, Prod.mk.injEq] at h
        have hxm : x.1 ≤ m'.1 := by
          rcases hc with hc | hc
          · exact le_of_lt hc
          · exact le_of_eq hc.1
        rcases List.mem_cons.mp hy with rfl | hy'
        · rw [← h.1]
        · rw [← h.1]
          exact hxm.trans (ih m' rest' hxs y hy')
      · simp only [if_neg hc, Option.some.injEq, Prod.mk.injEq] at h
        push_neg at hc
        have hmx : m'.1 ≤ x.1 := hc.1
        rcases List.mem_cons.mp hy with rfl | hy'
        · rw [← h.1]
          exact hmx
        · rw [← h.1]
          exact ih m' rest' hxs y hy'

/-- Total edge entries of the graph (used only to size the fuel). -/
def edgeCount (g : Graph TNode TEdge) : ℕ :=
  (g.adjacency.map (fun p => p.2.length)).sum

/-- One relaxation of `run`'s inner loop: if `du + w` improves on `dist[v]`,
record the new distance, the parent, and push the pair. -/
def relaxOne [DecidableEq TNode] (u : TNode) (du : ℚ) (st : DijkstraState TNode)
    (pr : TNode × WeightedEdge) : DijkstraState TNode :=
  if ((du + pr.2.weight : ℚ) : WithTop ℚ) < distGet st.dist pr.1 then
    { dist := setA st.dist pr.1 ((du + pr.2.weight : ℚ) : WithTop ℚ),
      parent := setA st.parent pr.1 u,
      pq := st.pq ++ [(du + pr.2.weight, pr.1)] }
  else st

/-- The `while (!pq.empty())` loop of `Dijkstra::run` with lazy deletion of
stale entries, fuelled; the fuel is proved sufficient below. -/
def dijkstraLoop [LinearOrder TNode] [DecidableEq TNode] (g : Graph TNode WeightedEdge) :
    ℕ → DijkstraState TNode → DijkstraState TNode
  | 0, st => st
  | fuel + 1, st =>
      match popMin st.pq with
      | none => st
      | some ((du, u), rest) =>
          if (du : WithTop ℚ) = distGet st.dist u then
            match getA g.adjacency u with
            | none => dijkstraLoop g fuel { st with pq := rest }
            | some edges => dijkstraLoop g fuel (edges.foldl (relaxOne u du) { st with pq := rest })
          else dijkstraLoop g fuel { st with pq := rest }

/-- `Dijkstra::run`: initialize every known node to infinity, return at once if
the start is absent, else seed `dist[start] = 0` and the queue with `(0,start)`
and run the loop. -/
def dijkstraRun [LinearOrder TNode] [DecidableEq TNode] (g : Graph TNode WeightedEdge)
    (start : TNode) : DijkstraState TNode :=
  let dist0 := g.adjacency.map (fun p => (p.1, (⊤ : WithTop ℚ)))
  if hasNode g start then
    dijkstraLoop g (2 + edgeCount g)
      { dist := setA dist0 start ((0 : ℚ) : WithTop ℚ), parent := [], pq := [(0, start)] }
  else { dist := dist0, parent := [], pq := [] }

/-- An edge `u → v` of weight `w` in the weighted graph (parallel entries are
distinct edges of possibly equal weight). -/
def isEdgeW [DecidableEq TNode] (g : Graph TNode WeightedEdge) (u v : TNode) (w : ℚ) : Prop :=
  ∃ l, getA g.adjacency u = some l ∧ (v, ⟨w⟩) ∈ l

/-- Well-formedness maintained by every `Graph` mutator: every adjacency
target is itself a key of the map. -/
def GraphWF [DecidableEq TNode] (g : Graph TNode TEdge) : Prop :=
  ∀ p ∈ g.adjacency, ∀ q ∈ p.2, hasNode g q.1 = true

/-- The caller contract of the engine: all edge weights are nonnegative. -/
def NonnegWeights [DecidableEq TNode] (g : Graph TNode WeightedEdge) : Prop :=
  ∀ p ∈ g.adjacency, ∀ q ∈ p.2, 0 ≤ q.2.weight

/-- A path from `s` ending at the indexed node with the indexed total weight,
built by appending edges. -/
inductive IsPathW [DecidableEq TNode] (g : Graph TNode WeightedEdge) (s : TNode) :
    TNode → ℚ → Prop
  | nil : IsPathW g s s 0
  | cons {u : TNode} {c : ℚ} {v : TNode} {w : ℚ} :
      IsPathW g s u c → isEdgeW g u v w → IsPathW g s v (c + w)

theorem isEdgeW_nonneg [DecidableEq TNode] {g : Graph TNode WeightedEdge}
    (hnn : NonnegWeights g) {u v : TNode} {w : ℚ} (h : isEdgeW g u v w) : 0 ≤ w := by
  obtain ⟨l, hl, hmem⟩ := h
  exact hnn (u, l) (getA_mem _ _ _ hl) (v, ⟨w⟩) hmem

theorem isEdgeW_hasNode [DecidableEq TNode] {g : Graph TNode WeightedEdge}
    (hwf : GraphWF g) {u v : TNode} {w : ℚ} (h : isEdgeW g u v w) : hasNode g v = true := by
  obtain ⟨l, hl, hmem⟩ := h
  exact hwf (u, l) (getA_mem _ _ _ hl) (v, ⟨w⟩) hmem

theorem IsPathW.nonneg [DecidableEq TNode] {g : Graph TNode WeightedEdge}
    (hnn : NonnegWeights g) {s z : TNode} {c : ℚ} (h : IsPathW g s z c) : 0 ≤ c := by
  induction h with
  | nil => exact le_refl 0
  | cons hp he ih => exact add_nonneg ih (isEdgeW_nonneg hnn he)

theorem IsPathW.compose [DecidableEq TNode] {g : Graph TNode WeightedEdge}
    {s u z : TNode} {c1 c2 : ℚ} (h1 : IsPathW g s u c1) (h2 : IsPathW g u z c2) :
    IsPathW g s z (c1 + c2) := by
  induction h2 with
  | nil => simpa using h1
  | cons hp he ih =>
    have := IsPathW.cons ih he
    rwa [add_assoc] at this

/-- Total weight of an explicit step list. -/
def chainCost (steps : List (TNode × ℚ)) : ℚ := (steps.map Prod.snd).sum

/-- An explicit edge chain starting at `a`: each step names the next node and
the weight of an actual adjacency entry leading to it. -/
def IsChainFrom [DecidableEq TNode] (g : Graph TNode WeightedEdge) : TNode → List (TNode × ℚ) → Prop
  | _, [] => True
  | a, (v, w) :: rest => isEdgeW g a v w ∧ IsChainFrom g v rest

/-- Endpoint of a chain starting at `a`. -/
def chainEnd (a : TNode) (steps : List (TNode × ℚ)) : TNode :=
  (steps.map Prod.fst).getLastD a

theorem chainCost_nil : chainCost ([] : List (TNode × ℚ)) = 0 := rfl

theorem chainCost_cons (v : TNode) (w : ℚ) (rest : List (TNode × ℚ)) :
    chainCost ((v, w) :: rest) = w + chainCost rest := by
  simp [chainCost]

theorem chainCost_append (s1 s2 : List (TNode × ℚ)) :
    chainCost (s1 ++ s2) = chainCost s1 + chainCost s2 := by
  simp [chainCost]

theorem chainEnd_cons (a v : TNode) (w : ℚ) (rest : List (TNode × ℚ)) :
    chainEnd a ((v, w) :: rest) = chainEnd v rest := by
  unfold chainEnd
  rw [List.map_cons, List.getLastD_cons]

theorem chainEnd_append_single (a v : TNode) (w : ℚ) (s : List (TNode × ℚ)) :
    chainEnd a (s ++ [(v, w)]) = v := by
  simp [chainEnd]

theorem chain_append_split [DecidableEq TNode] (g : Graph TNode WeightedEdge) :
    ∀ (s1 s2 : List (TNode × ℚ)) (a : TNode),
      IsChainFrom g a (s1 ++ s2) ↔ (IsChainFrom g a s1 ∧ IsChainFrom g (chainEnd a s1) s2) := by
  intro s1
  induction s1 with
  | nil =>
    intro s2 a
    simp [IsChainFrom, chainEnd]
  | cons p rest ih =>
    intro s2 a
    rcases p with ⟨v, w⟩
    simp only [List.cons_append, IsChainFrom, chainEnd_cons]
    rw [show rest.append s2 = rest ++ s2 from rfl, ih s2 v]
    tauto

theorem chain_to_path [DecidableEq TNode] (g : Graph TNode WeightedEdge) :
    ∀ (steps : List (TNode × ℚ)) (a : TNode), IsChainFrom g a steps →
      IsPathW g a (chainEnd a steps) (chainCost steps) := by
  intro steps
  induction steps with
  | nil =>
    intro a h
    exact IsPathW.nil
  | cons p rest ih =>
    intro a h
    rcases p with ⟨v, w⟩
    obtain ⟨he, hrest⟩ := h
    have h1 : IsPathW g a v (0 + w) := IsPathW.cons IsPathW.nil he
    have h2 := ih v hrest
    have := IsPathW.compose h1 h2
    rw [chainEnd_cons, chainCost_cons]
    have harith : 0 + w + chainCost rest = w + chainCost rest := by ring
    rwa [harith] at this

theorem path_to_chain [DecidableEq TNode] (g : Graph TNode WeightedEdge) {s z : TNode} {c : ℚ}
    (h : IsPathW g s z c) :
    ∃ steps, IsChainFrom g s steps ∧ chainEnd s steps = z ∧ chainCost steps = c := by
  induction h with
  | nil => exact ⟨[], trivial, rfl, rfl⟩
  | cons hp he ih =>
    rename_i u c' v w
    obtain ⟨steps, hchain, hend, hcost⟩ := ih
    refine ⟨steps ++ [(v, w)], ?_, ?_, ?_⟩
    · rw [chain_append_split]
      exact ⟨hchain, by rw [hend]; exact ⟨he, trivial⟩⟩
    · exact chainEnd_append_single s v w steps
    · rw [chainCost_append, hcost, chainCost_cons, chainCost_nil]
      ring

/-- A node is settled once it carries a finite distance whose matching queue
entry has been popped: from then on its distance is final. -/
def settled [DecidableEq TNode] (st : DijkstraState TNode) (v : TNode) : Prop :=
  ∃ d : ℚ, getA st.dist v = some ((d : ℚ) : WithTop ℚ) ∧ (d, v) ∉ st.pq

/-- Decidable form of `settled`, used by the termination measure. -/
def settledB [DecidableEq TNode] (st : DijkstraState TNode) (v : TNode) : Bool :=
  match getA st.dist v with
  | none => false
  | some d => decide (d ≠ ⊤) && decide ((WithTop.untop' 0 d, v) ∉ st.pq)

theorem settledB_iff [DecidableEq TNode] (st : DijkstraState TNode) (v : TNode) :
    settledB st v = true ↔ settled st v := by
  unfold settledB settled
  rcases hd : getA st.dist v with _ | d
  · simp
  · by_cases ht : d = ⊤
    · subst ht
      simp
    · obtain ⟨q, rfl⟩ := WithTop.ne_top_iff_exists.mp ht
      simp only [Bool.and_eq_true, decide_eq_true_eq]
      constructor
      · rintro ⟨-, hnot⟩
        refine ⟨q, rfl, ?_⟩
        simpa using hnot
      · rintro ⟨q', hq', hnot⟩
        have hqq : q = q' := by exact_mod_cast Option.some.inj hq'
        subst hqq
        refine ⟨by simp, ?_⟩
        simpa using hnot

/-- Termination measure: pending queue entries plus the adjacency degrees of
all unsettled keys (an upper bound on the pushes still possible). -/
def potential [DecidableEq TNode] (g : Graph TNode WeightedEdge) (st : DijkstraState TNode) :
    ℕ :=
  st.pq.length + ((g.adjacency.filter (fun p => ! settledB st p.1)).map (fun p => p.2.length)).sum

/-- The loop invariant of `Dijkstra::run`. -/
structure DInv [LinearOrder TNode] [DecidableEq TNode] (g : Graph TNode WeightedEdge)
    (start : TNode) (st : DijkstraState TNode) : Prop where
  keys : ∀ v, (getA st.dist v).isSome = hasNode g v
  nodup : st.pq.Nodup
  pq_lb : ∀ d v, (d, v) ∈ st.pq → distGet st.dist v ≤ ((d : ℚ) : WithTop ℚ)
  pq_path : ∀ d v, (d, v) ∈ st.pq → IsPathW g start v d
  attain : ∀ v (d : ℚ), getA st.dist v = some ((d : ℚ) : WithTop ℚ) → IsPathW g start v d
  settled_lb : ∀ v, settled st v → ∀ c, IsPathW g start v c →
    distGet st.dist v ≤ ((c : ℚ) : WithTop ℚ)
  frontier : ∀ u, settled st u → ∀ v w, isEdgeW g u v w →
    distGet st.dist v ≤ distGet st.dist u + ((w : ℚ) : WithTop ℚ)
  start0 : getA st.dist start = some ((0 : ℚ) : WithTop ℚ)
  parent_prop : ∀ v u, getA st.parent v = some u → settled st u ∧
    ∃ w, isEdgeW g u v w ∧ distGet st.dist v = distGet st.dist u + ((w : ℚ) : WithTop ℚ)
  parent_some : ∀ v, v ≠ start → ∀ d : ℚ, getA st.dist v = some ((d : ℚ) : WithTop ℚ) →
    (getA st.parent v).isSome = true
  order : ∃ seq : List TNode, seq.Nodup ∧ (∀ v, v ∈ seq ↔ settled st v) ∧
    ∀ (i : ℕ) (hi : i < seq.length) (u : TNode),
      getA st.parent (seq.get ⟨i, hi⟩) = some u →
      ∃ j, ∃ hj : j < seq.length, j < i ∧ seq.get ⟨j, hj⟩ = u

theorem bool_eq_of_iff {a b : Bool} (h : a = true ↔ b = true) : a = b := by
  cases a <;> cases b <;> simp_all

theorem getA_none_all_ne {α β : Type} [DecidableEq α] (l : List (α × β)) (k : α)
    (h : getA l k = none) : ∀ p ∈ l, p.1 ≠ k := by
  induction l with
  | nil => simp
  | cons p rest ih =>
    by_cases hp : p.1 = k
    · simp [getA, hp] at h
    · simp only [getA, if_neg hp] at h
      intro q hq
      rcases List.mem_cons.mp hq with rfl | hq'
      · exact hp
      · exact ih h q hq'

/-- Facts delivered by one `popMin` on a duplicate-free queue. -/
theorem pop_facts [LinearOrder TNode] (pq : List (ℚ × TNode)) (du : ℚ) (u : TNode)
    (rest : List (ℚ × TNode)) (h : popMin pq = some ((du, u), rest)) (hnd : pq.Nodup) :
    (du, u) ∈ pq ∧ rest.Nodup ∧ (du, u) ∉ rest ∧
    (∀ e : ℚ × TNode, e ∈ pq ↔ (e = (du, u) ∨ e ∈ rest)) ∧
    (∀ d v, (d, v) ∈ pq → du ≤ d) ∧ pq.length = rest.length + 1 := by
  have hperm := popMin_perm pq (du, u) rest h
  have hnd2 : ((du, u) :: rest).Nodup := (hperm.nodup_iff).mpr hnd
  refine ⟨hperm.mem_iff.mp (by simp), (List.nodup_cons.mp hnd2).2,
    (List.nodup_cons.mp hnd2).1, ?_, ?_, ?_⟩
  · intro e
    rw [← hperm.mem_iff]
    simp
  · intro d v hm
    exact popMin_min pq (du, u) rest h (d, v) hm
  · have := hperm.length_eq
    simpa using this.symm

theorem settled_restrict_pq [DecidableEq TNode] (st : DijkstraState TNode)
    (rest : List (ℚ × TNode)) (du : ℚ) (u : TNode)
    (hmem : ∀ e : ℚ × TNode, e ∈ st.pq ↔ (e = (du, u) ∨ e ∈ rest)) :
    ∀ v, v ≠ u →
      (settled { st with pq := rest } v ↔ settled st v) := by
  intro v hvu
  unfold settled
  constructor
  · rintro ⟨d, hd, hnot⟩
    refine ⟨d, hd, ?_⟩
    intro hc
    rcases (hmem (d, v)).mp hc with hc' | hc'
    · exact hvu (congrArg Prod.snd hc')
    · exact hnot hc'
  · rintro ⟨d, hd, hnot⟩
    exact ⟨d, hd, fun hc => hnot ((hmem (d, v)).mpr (Or.inr hc))⟩

theorem settled_fresh_u [DecidableEq TNode] (st : DijkstraState TNode)
    (rest : List (ℚ × TNode)) (du : ℚ) (u : TNode)
    (hnot : (du, u) ∉ rest)
    (hget : getA st.dist u = some ((du : ℚ) : WithTop ℚ)) :
    settled { st with pq := rest } u :=
  ⟨du, hget, hnot⟩

theorem distGet_of_getA [DecidableEq TNode] (dist : List (TNode × WithTop ℚ)) (v : TNode)
    (d : WithTop ℚ) (h : getA dist v = some d) : distGet dist v = d := by
  simp [distGet, h]

theorem getA_of_nonstale [DecidableEq TNode] (st : DijkstraState TNode) (du : ℚ) (u : TNode)
    (hkey : (getA st.dist u).isSome = true)
    (heq : ((du : ℚ) : WithTop ℚ) = distGet st.dist u) :
    getA st.dist u = some ((du : ℚ) : WithTop ℚ) := by
  obtain ⟨d, hd⟩ := Option.isSome_iff_exists.mp hkey
  rw [hd]
  rw [distGet_of_getA st.dist u d hd] at heq
  rw [heq]

theorem potential_congr [LinearOrder TNode] [DecidableEq TNode] (g : Graph TNode WeightedEdge)
    (st st' : DijkstraState TNode)
    (hsb : ∀ v, settledB st' v = settledB st v) :
    potential g st' = st'.pq.length
      + ((g.adjacency.filter (fun p => ! settledB st p.1)).map (fun p => p.2.length)).sum := by
  unfold potential
  congr 2
  congr 1
  apply List.filter_congr
  intro p hp
  rw [hsb p.1]

/-- Processing a stale entry removes it and changes nothing else. -/
theorem DInv_stale [LinearOrder TNode] [DecidableEq TNode] {g : Graph TNode WeightedEdge}
    {start : TNode} {st : DijkstraState TNode} (hinv : DInv g start st)
    {du : ℚ} {u : TNode} {rest : List (ℚ × TNode)}
    (hpop : popMin st.pq = some ((du, u), rest))
    (hne : ((du : ℚ) : WithTop ℚ) ≠ distGet st.dist u) :
    DInv g start { st with pq := rest } ∧
      potential g { st with pq := rest } + 1 ≤ potential g st := by
  obtain ⟨hmem0, hndrest, hnotrest, hmem, hmin, hlen⟩ :=
    pop_facts st.pq du u rest hpop hinv.nodup
  have hsettled : ∀ v, settled { st with pq := rest } v ↔ settled st v := by
    intro v
    by_cases hvu : v = u
    · subst hvu
      unfold settled
      constructor
      · rintro ⟨d, hd, hn⟩
        refine ⟨d, hd, fun hc => ?_⟩
        rcases (hmem (d, v)).mp hc with hc' | hc'
        · have hd' : d = du := congrArg Prod.fst hc'
          subst hd'
          exact hne (distGet_of_getA _ _ _ hd).symm
        · exact hn hc'
      · rintro ⟨d, hd, hn⟩
        exact ⟨d, hd, fun hc => hn ((hmem _).mpr (Or.inr hc))⟩
    · exact settled_restrict_pq st rest du u hmem v hvu
  have hsb : ∀ v, settledB { st with pq := rest } v = settledB st v := fun v =>
    bool_eq_of_iff (by rw [settledB_iff, settledB_iff]; exact hsettled v)
  constructor
  · refine ⟨hinv.keys, hndrest, ?_, ?_, hinv.attain, ?_, ?_, hinv.start0, ?_,
      hinv.parent_some, ?_⟩
    · intro d v h
      exact hinv.pq_lb d v ((hmem _).mpr (Or.inr h))
    · intro d v h
      exact hinv.pq_path d v ((hmem _).mpr (Or.inr h))
    · intro v hv c hc
      exact hinv.settled_lb v ((hsettled v).mp hv) c hc
    · intro x hx v w he
      exact hinv.frontier x ((hsettled x).mp hx) v w he
    · intro v p hp
      obtain ⟨h1, h2⟩ := hinv.parent_prop v p hp
      exact ⟨(hsettled p).mpr h1, h2⟩
    · obtain ⟨seq, hnd, hiff, hord⟩ := hinv.order
      exact ⟨seq, hnd, fun v => (hiff v).trans (hsettled v).symm, hord⟩
  · rw [potential_congr g st _ hsb]
    unfold potential
    simp only
    omega

theorem path_end_hasNode [DecidableEq TNode] {g : Graph TNode WeightedEdge}
    (hwf : GraphWF g) {start z : TNode} {c : ℚ}
    (hstart : hasNode g start = true) (h : IsPathW g start z c) : hasNode g z = true := by
  induction h with
  | nil => exact hstart
  | cons hp he ih => exact isEdgeW_hasNode hwf he

/-- Any path to an unsettled node is covered by some queue entry of no larger
cost. -/
theorem cover [LinearOrder TNode] [DecidableEq TNode] {g : Graph TNode WeightedEdge}
    {start : TNode} {st : DijkstraState TNode}
    (hwf : GraphWF g) (hnn : NonnegWeights g) (hinv : DInv g start st) :
    ∀ {z : TNode} {c : ℚ}, IsPathW g start z c → ¬ settled st z →
      ∃ d v, (d, v) ∈ st.pq ∧ d ≤ c := by
  intro z c hpath
  induction hpath with
  | nil =>
    intro hns
    refine ⟨0, start, ?_, le_refl 0⟩
    by_contra hc
    exact hns ⟨0, hinv.start0, hc⟩
  | @cons y c1 z' w hp he ih =>
    intro hns
    by_cases hy : settled st y
    · have h1 : distGet st.dist y ≤ ((c1 : ℚ) : WithTop ℚ) := hinv.settled_lb y hy c1 hp
      have h2 := hinv.frontier y hy z' w he
      have h3 : distGet st.dist z' ≤ (((c1 + w : ℚ)) : WithTop ℚ) := by
        refine le_trans h2 ?_
        calc distGet st.dist y + ((w : ℚ) : WithTop ℚ)
            ≤ ((c1 : ℚ) : WithTop ℚ) + ((w : ℚ) : WithTop ℚ) := add_le_add_right h1 _
          _ = (((c1 + w : ℚ)) : WithTop ℚ) := by norm_cast
      have hz'node := isEdgeW_hasNode hwf he
      have hsome : (getA st.dist z').isSome := by rw [hinv.keys z', hz'node]
      obtain ⟨dz, hdz⟩ := Option.isSome_iff_exists.mp hsome
      have hdg : distGet st.dist z' = dz := distGet_of_getA _ _ _ hdz
      rw [hdg] at h3
      have hfin : dz ≠ ⊤ := by
        intro ht
        rw [ht] at h3
        exact WithTop.coe_ne_top (top_le_iff.mp h3)
      obtain ⟨q, rfl⟩ := WithTop.ne_top_iff_exists.mp hfin
      have hqmem : (q, z') ∈ st.pq := by
        by_contra hc
        exact hns ⟨q, hdz, hc⟩
      refine ⟨q, z', hqmem, ?_⟩
      exact_mod_cast h3
    · obtain ⟨d, v, hm, hd⟩ := ih hy
      refine ⟨d, v, hm, hd.trans ?_⟩
      have hw := isEdgeW_nonneg hnn he
      linarith

/-- When a non-stale entry `(du,u)` is popped, `du` is a lower bound on every
path cost to `u` — the heart of Dijkstra with lazy deletion. -/
theorem pop_optimal [LinearOrder TNode] [DecidableEq TNode] {g : Graph TNode WeightedEdge}
    {start : TNode} {st : DijkstraState TNode}
    (hwf : GraphWF g) (hnn : NonnegWeights g) (hstart : hasNode g start = true)
    (hinv : DInv g start st) {du : ℚ} {u : TNode}
    (hmem0 : (du, u) ∈ st.pq)
    (hmin : ∀ d v, (d, v) ∈ st.pq → du ≤ d)
    (heq : ((du : ℚ) : WithTop ℚ) = distGet st.dist u) :
    (getA st.dist u = some ((du : ℚ) : WithTop ℚ)) ∧
    (∀ c, IsPathW g start u c → du ≤ c) := by
  have hpath := hinv.pq_path du u hmem0
  have hunode : hasNode g u = true := path_end_hasNode hwf hstart hpath
  have hkey : (getA st.dist u).isSome = true := by rw [hinv.keys u, hunode]
  have hgu := getA_of_nonstale st du u hkey heq
  refine ⟨hgu, ?_⟩
  intro c hc
  have hnsu : ¬ settled st u := by
    rintro ⟨d, hd, hn⟩
    rw [hgu] at hd
    have : du = d := by exact_mod_cast Option.some.inj hd
    subst this
    exact hn hmem0
  obtain ⟨d, v, hm, hdc⟩ := cover hwf hnn hinv hc hnsu
  exact (hmin d v hm).trans hdc

/-- Invariant maintained while the inner `for` loop relaxes the out-edges of
the freshly settled node `u` (final distance `du`): `DInv` with the frontier
condition suspended at `u` and the facts about `u` itself carried explicitly. -/
structure MInv [LinearOrder TNode] [DecidableEq TNode] (g : Graph TNode WeightedEdge)
    (start u : TNode) (du : ℚ) (st : DijkstraState TNode) : Prop where
  keys : ∀ v, (getA st.dist v).isSome = hasNode g v
  nodup : st.pq.Nodup
  pq_lb : ∀ d v, (d, v) ∈ st.pq → distGet st.dist v ≤ ((d : ℚ) : WithTop ℚ)
  pq_path : ∀ d v, (d, v) ∈ st.pq → IsPathW g start v d
  attain : ∀ v (d : ℚ), getA st.dist v = some ((d : ℚ) : WithTop ℚ) → IsPathW g start v d
  u_dist : getA st.dist u = some ((du : ℚ) : WithTop ℚ)
  u_set : settled st u
  settled_lb : ∀ v, settled st v → ∀ c, IsPathW g start v c →
    distGet st.dist v ≤ ((c : ℚ) : WithTop ℚ)
  frontier' : ∀ x, settled st x → x ≠ u → ∀ v w, isEdgeW g x v w →
    distGet st.dist v ≤ distGet st.dist x + ((w : ℚ) : WithTop ℚ)
  start0 : getA st.dist start = some ((0 : ℚ) : WithTop ℚ)
  parent_prop : ∀ v p, getA st.parent v = some p → settled st p ∧
    ∃ w, isEdgeW g p v w ∧ distGet st.dist v = distGet st.dist p + ((w : ℚ) : WithTop ℚ)
  parent_some : ∀ v, v ≠ start → ∀ d : ℚ, getA st.dist v = some ((d : ℚ) : WithTop ℚ) →
    (getA st.parent v).isSome = true
  order : ∃ seq : List TNode, seq.Nodup ∧ (∀ v, v ∈ seq ↔ settled st v) ∧
    ∀ (i : ℕ) (hi : i < seq.length) (p : TNode),
      getA st.parent (seq.get ⟨i, hi⟩) = some p →
      ∃ j, ∃ hj : j < seq.length, j < i ∧ seq.get ⟨j, hj⟩ = p

/-- A non-stale pop settles `u` and establishes the mid-fold invariant. -/
theorem MInv_of_pop [LinearOrder TNode] [DecidableEq TNode] {g : Graph TNode WeightedEdge}
    {start : TNode} {st : DijkstraState TNode}
    (hwf : GraphWF g) (hnn : NonnegWeights g) (hstart : hasNode g start = true)
    (hinv : DInv g start st) {du : ℚ} {u : TNode} {rest : List (ℚ × TNode)}
    (hpop : popMin st.pq = some ((du, u), rest))
    (heq : ((du : ℚ) : WithTop ℚ) = distGet st.dist u) :
    MInv g start u du { st with pq := rest } ∧
      (∀ v, v ≠ u → (settled { st with pq := rest } v ↔ settled st v)) ∧
      ¬ settled st u ∧ st.pq.length = rest.length + 1 := by
  obtain ⟨hmem0, hndrest, hnotrest, hmem, hmin, hlen⟩ :=
    pop_facts st.pq du u rest hpop hinv.nodup
  obtain ⟨hgu, hopt⟩ := pop_optimal hwf hnn hstart hinv hmem0 hmin heq
  have hsiff : ∀ v, v ≠ u → (settled { st with pq := rest } v ↔ settled st v) :=
    settled_restrict_pq st rest du u hmem
  have hsu : settled { st with pq := rest } u := settled_fresh_u st rest du u hnotrest hgu
  have hnsu : ¬ settled st u := by
    rintro ⟨d, hd, hn⟩
    rw [hgu] at hd
    have hdu : du = d := by exact_mod_cast Option.some.inj hd
    subst hdu
    exact hn hmem0
  have hsup : ∀ v, settled st v → settled { st with pq := rest } v := by
    intro v hv
    by_cases hvu : v = u
    · subst hvu; exact absurd hv hnsu
    · exact (hsiff v hvu).mpr hv
  refine ⟨?_, hsiff, hnsu, hlen⟩
  refine ⟨hinv.keys, hndrest, ?_, ?_, hinv.attain, hgu, hsu, ?_, ?_, hinv.start0, ?_,
    hinv.parent_some, ?_⟩
  · intro d v h
    exact hinv.pq_lb d v ((hmem _).mpr (Or.inr h))
  · intro d v h
    exact hinv.pq_path d v ((hmem _).mpr (Or.inr h))
  · intro v hv c hc
    by_cases hvu : v = u
    · subst hvu
      rw [distGet_of_getA _ _ _ hgu]
      exact_mod_cast hopt c hc
    · exact hinv.settled_lb v ((hsiff v hvu).mp hv) c hc
  · intro x hx hxu v w he
    exact hinv.frontier x ((hsiff x hxu).mp hx) v w he
  · intro v p hp
    obtain ⟨h1, h2⟩ := hinv.parent_prop v p hp
    exact ⟨hsup p h1, h2⟩
  · obtain ⟨seq, hnd, hiff, hord⟩ := hinv.order
    have hu_not : u ∉ seq := fun hmemu => hnsu ((hiff u).mp hmemu)
    refine ⟨seq ++ [u], ?_, ?_, ?_⟩
    · simp [List.nodup_append, hnd, hu_not]
    · intro v
      simp only [List.mem_append, List.mem_singleton]
      constructor
      · rintro (hv | rfl)
        · exact hsup v ((hiff v).mp hv)
        · exact hsu
      · intro hv
        by_cases hvu : v = u
        · exact Or.inr hvu
        · exact Or.inl ((hiff v).mpr ((hsiff v hvu).mp hv))
    · intro i hi p hp
      have hi' : i < seq.length + 1 := by simpa using hi
      by_cases hcase : i < seq.length
      · have hget : (seq ++ [u]).get ⟨i, hi⟩ = seq.get ⟨i, hcase⟩ := by
          simp only [List.get_eq_getElem]
          exact List.getElem_append_left hcase
        rw [hget] at hp
        obtain ⟨j, hj, hji, hgj⟩ := hord i hcase p hp
        have hj2 : j < (seq ++ [u]).length := by simp; omega
        refine ⟨j, hj2, hji, ?_⟩
        have hg2 : (seq ++ [u]).get ⟨j, hj2⟩ = seq.get ⟨j, hj⟩ := by
          simp only [List.get_eq_getElem]
          exact List.getElem_append_left hj
        rw [hg2, hgj]
      · have hie : i = seq.length := by omega
        subst hie
        have hget : (seq ++ [u]).get ⟨seq.length, hi⟩ = u := by
          simp [List.get_eq_getElem]
        rw [hget] at hp
        obtain ⟨hps, -⟩ := hinv.parent_prop u p hp
        have hpmem : p ∈ seq := (hiff p).mpr hps
        obtain ⟨⟨j, hj⟩, hgj⟩ := List.mem_iff_get.mp hpmem
        have hj2 : j < (seq ++ [u]).length := by simp; omega
        refine ⟨j, hj2, hj, ?_⟩
        have hg2 : (seq ++ [u]).get ⟨j, hj2⟩ = seq.get ⟨j, hj⟩ := by
          simp only [List.get_eq_getElem]
          exact List.getElem_append_left hj
        rw [hg2, hgj]

/-- A relaxation that fires (`du + w < dist[v]`) preserves the mid-fold
invariant: the improved node keeps exactly one active queue entry. -/
theorem relax_fire [LinearOrder TNode] [DecidableEq TNode] {g : Graph TNode WeightedEdge}
    {start u : TNode} {du : ℚ} {st st' : DijkstraState TNode}
    (hwf : GraphWF g) (hnn : NonnegWeights g) (hM : MInv g start u du st)
    {v0 : TNode} {w0 : ℚ} (he : isEdgeW g u v0 w0)
    (hlt : (((du + w0 : ℚ)) : WithTop ℚ) < distGet st.dist v0)
    (hd : st'.dist = setA st.dist v0 (((du + w0 : ℚ)) : WithTop ℚ))
    (hp : st'.parent = setA st.parent v0 u)
    (hq : st'.pq = st.pq ++ [(du + w0, v0)]) :
    MInv g start u du st' ∧ (∀ v, distGet st'.dist v ≤ distGet st.dist v) ∧
      distGet st'.dist v0 = (((du + w0 : ℚ)) : WithTop ℚ) ∧
      (∀ v, settled st' v ↔ settled st v) ∧
      st'.pq.length = st.pq.length + 1 := by
  have hw0nn : 0 ≤ w0 := isEdgeW_nonneg hnn he
  have hpath_u : IsPathW g start u du := hM.attain u du hM.u_dist
  have hdu_nn : 0 ≤ du := IsPathW.nonneg hnn hpath_u
  have hpath_v : IsPathW g start v0 (du + w0) := IsPathW.cons hpath_u he
  have hdgu : distGet st.dist u = ((du : ℚ) : WithTop ℚ) := distGet_of_getA _ _ _ hM.u_dist
  have hvu : v0 ≠ u := by
    rintro rfl
    rw [hdgu] at hlt
    have hcon : du + w0 < du := by exact_mod_cast hlt
    linarith
  have hnsv : ¬ settled st v0 := fun hs =>
    absurd (hM.settled_lb v0 hs (du + w0) hpath_v) (not_le.mpr hlt)
  have hnmem : (du + w0, v0) ∉ st.pq := fun hmem =>
    absurd (hM.pq_lb _ _ hmem) (not_le.mpr hlt)
  have hvstart : v0 ≠ start := by
    rintro rfl
    rw [distGet_of_getA _ _ _ hM.start0] at hlt
    have hcon : du + w0 < 0 := by exact_mod_cast hlt
    linarith
  have hvnode : hasNode g v0 = true := isEdgeW_hasNode hwf he
  have hgv : getA st'.dist v0 = some (((du + w0 : ℚ)) : WithTop ℚ) := by
    rw [hd]; exact getA_setA_same _ _ _
  have hdv : distGet st'.dist v0 = (((du + w0 : ℚ)) : WithTop ℚ) := distGet_of_getA _ _ _ hgv
  have hgne : ∀ x, x ≠ v0 → getA st'.dist x = getA st.dist x := by
    intro x hx
    rw [hd]; exact getA_setA_ne _ _ _ _ hx.symm
  have hdne : ∀ x, x ≠ v0 → distGet st'.dist x = distGet st.dist x := by
    intro x hx
    unfold distGet
    rw [hgne x hx]
  have hmono : ∀ x, distGet st'.dist x ≤ distGet st.dist x := by
    intro x
    by_cases hx : x = v0
    · subst hx; rw [hdv]; exact le_of_lt hlt
    · rw [hdne x hx]
  have hpq_mem : ∀ (d : ℚ) (x : TNode),
      (d, x) ∈ st'.pq ↔ ((d, x) ∈ st.pq ∨ (d = du + w0 ∧ x = v0)) := by
    intro d x
    rw [hq]
    simp [Prod.ext_iff]
  have hsiff : ∀ x, settled st' x ↔ settled st x := by
    intro x
    by_cases hx : x = v0
    · subst hx
      constructor
      · rintro ⟨d, hdx, hn⟩
        rw [hgv] at hdx
        have hdd : du + w0 = d := by exact_mod_cast Option.some.inj hdx
        rw [← hdd] at hn
        exact absurd ((hpq_mem _ _).mpr (Or.inr ⟨rfl, rfl⟩)) hn
      · intro hs
        exact absurd hs hnsv
    · unfold settled
      constructor
      · rintro ⟨d, hdx, hn⟩
        rw [hgne x hx] at hdx
        exact ⟨d, hdx, fun hc => hn ((hpq_mem _ _).mpr (Or.inl hc))⟩
      · rintro ⟨d, hdx, hn⟩
        refine ⟨d, by rw [hgne x hx]; exact hdx, ?_⟩
        intro hc
        rcases (hpq_mem _ _).mp hc with hc' | ⟨-, hc'⟩
        · exact hn hc'
        · exact hx hc'
  have hgu' : getA st'.dist u = some ((du : ℚ) : WithTop ℚ) := by
    rw [hgne u hvu.symm]; exact hM.u_dist
  have hdu' : distGet st'.dist u = ((du : ℚ) : WithTop ℚ) := distGet_of_getA _ _ _ hgu'
  refine ⟨⟨?_, ?_, ?_, ?_, ?_, hgu', (hsiff u).mpr hM.u_set, ?_, ?_, ?_, ?_, ?_, ?_⟩,
    hmono, hdv, hsiff, by rw [hq]; simp⟩
  · intro x
    by_cases hx : x = v0
    · subst hx
      rw [hgv, hvnode]
      rfl
    · rw [hgne x hx]; exact hM.keys x
  · rw [hq]
    simp [List.nodup_append, hM.nodup, hnmem]
  · intro d x hmem
    rcases (hpq_mem d x).mp hmem with h | ⟨rfl, rfl⟩
    · by_cases hx : x = v0
      · subst hx
        rw [hdv]
        exact le_trans (le_of_lt hlt) (hM.pq_lb d x h)
      · rw [hdne x hx]
        exact hM.pq_lb d x h
    · rw [hdv]
  · intro d x hmem
    rcases (hpq_mem d x).mp hmem with h | ⟨rfl, rfl⟩
    · exact hM.pq_path d x h
    · exact hpath_v
  · intro x d hx
    by_cases hxv : x = v0
    · subst hxv
      rw [hgv] at hx
      have hdd : du + w0 = d := by exact_mod_cast Option.some.inj hx
      rw [← hdd]
      exact hpath_v
    · rw [hgne x hxv] at hx
      exact hM.attain x d hx
  · intro x hs c hc
    have hsx : settled st x := (hsiff x).mp hs
    have hxv : x ≠ v0 := fun h => hnsv (h ▸ hsx)
    rw [hdne x hxv]
    exact hM.settled_lb x hsx c hc
  · intro x hs hxu y wy hey
    have hsx : settled st x := (hsiff x).mp hs
    have hxv : x ≠ v0 := fun h => hnsv (h ▸ hsx)
    rw [hdne x hxv]
    exact le_trans (hmono y) (hM.frontier' x hsx hxu y wy hey)
  · rw [hgne start hvstart.symm]
    exact hM.start0
  · intro x p hpx
    by_cases hxv : x = v0
    · subst hxv
      rw [hp, getA_setA_same] at hpx
      obtain rfl : u = p := Option.some.inj hpx
      refine ⟨(hsiff u).mpr hM.u_set, w0, he, ?_⟩
      rw [hdv, hdu']
      push_cast
      rfl
    · rw [hp, getA_setA_ne _ _ _ _ (Ne.symm hxv)] at hpx
      obtain ⟨hps, wy, hey, hdeq⟩ := hM.parent_prop x p hpx
      have hpv : p ≠ v0 := fun h => hnsv (h ▸ hps)
      refine ⟨(hsiff p).mpr hps, wy, hey, ?_⟩
      rw [hdne x hxv, hdne p hpv]
      exact hdeq
  · intro x hxs d hx
    by_cases hxv : x = v0
    · subst hxv
      rw [hp, getA_setA_same]
      rfl
    · rw [hgne x hxv] at hx
      rw [hp, getA_setA_ne _ _ _ _ (Ne.symm hxv)]
      exact hM.parent_some x hxs d hx
  · obtain ⟨seq, hnd, hiff2, hord⟩ := hM.order
    refine ⟨seq, hnd, fun x => (hiff2 x).trans (hsiff x).symm, ?_⟩
    intro i hi p hpx
    have hxmem : seq.get ⟨i, hi⟩ ∈ seq := seq.get_mem i hi
    have hxs : settled st (seq.get ⟨i, hi⟩) := (hiff2 _).mp hxmem
    have hxv : seq.get ⟨i, hi⟩ ≠ v0 := fun h => hnsv (h ▸ hxs)
    rw [hp, getA_setA_ne _ _ _ _ (Ne.symm hxv)] at hpx
    exact hord i hi p hpx

/-- One execution of the relaxation body preserves the mid-fold invariant,
never increases a distance, and satisfies the processed edge. -/
theorem relax_step [LinearOrder TNode] [DecidableEq TNode] {g : Graph TNode WeightedEdge}
    {start u : TNode} {du : ℚ} {st : DijkstraState TNode}
    (hwf : GraphWF g) (hnn : NonnegWeights g) (hM : MInv g start u du st)
    (pr : TNode × WeightedEdge) (he : isEdgeW g u pr.1 pr.2.weight) :
    MInv g start u du (relaxOne u du st pr) ∧
      (∀ v, distGet (relaxOne u du st pr).dist v ≤ distGet st.dist v) ∧
      distGet (relaxOne u du st pr).dist pr.1 ≤ (((du + pr.2.weight : ℚ)) : WithTop ℚ) ∧
      (∀ v, settled (relaxOne u du st pr) v ↔ settled st v) ∧
      (relaxOne u du st pr).pq.length ≤ st.pq.length + 1 := by
  have hco : (((du + pr.2.weight : ℚ)) : WithTop ℚ)
      = ((du : ℚ) : WithTop ℚ) + ((pr.2.weight : ℚ) : WithTop ℚ) := by push_cast; rfl
  by_cases hlt : (((du + pr.2.weight : ℚ)) : WithTop ℚ) < distGet st.dist pr.1
  · have hlt2 : ((du : ℚ) : WithTop ℚ) + ((pr.2.weight : ℚ) : WithTop ℚ)
        < distGet st.dist pr.1 := by rw [← hco]; exact hlt
    have hdq : (relaxOne u du st pr).dist = setA st.dist pr.1
        (((du + pr.2.weight : ℚ)) : WithTop ℚ) := by
      rw [hco]; simp [relaxOne, hlt2]
    have hpq : (relaxOne u du st pr).parent = setA st.parent pr.1 u := by
      simp [relaxOne, hlt2]
    have hqq : (relaxOne u du st pr).pq = st.pq ++ [(du + pr.2.weight, pr.1)] := by
      simp [relaxOne, hlt2]
    obtain ⟨h1, h2, h3, h4, h5⟩ := relax_fire hwf hnn hM he hlt hdq hpq hqq
    exact ⟨h1, h2, le_of_eq h3, h4, by omega⟩
  · have hlt2 : ¬ (((du : ℚ) : WithTop ℚ) + ((pr.2.weight : ℚ) : WithTop ℚ)
        < distGet st.dist pr.1) := by rw [← hco]; exact hlt
    have hid : relaxOne u du st pr = st := by simp [relaxOne, hlt2]
    rw [hid]
    exact ⟨hM, fun v => le_refl _, not_lt.mp hlt, fun v => Iff.rfl, by omega⟩

/-- Folding the relaxation over any sublist of `u`'s out-edges. -/
theorem relax_fold [LinearOrder TNode] [DecidableEq TNode] {g : Graph TNode WeightedEdge}
    {start u : TNode} {du : ℚ}
    (hwf : GraphWF g) (hnn : NonnegWeights g) :
    ∀ (todo : List (TNode × WeightedEdge)) (st : DijkstraState TNode),
      MInv g start u du st →
      (∀ pr ∈ todo, isEdgeW g u pr.1 pr.2.weight) →
      MInv g start u du (todo.foldl (relaxOne u du) st) ∧
        (∀ v, distGet (todo.foldl (relaxOne u du) st).dist v ≤ distGet st.dist v) ∧
        (∀ pr ∈ todo, distGet (todo.foldl (relaxOne u du) st).dist pr.1 ≤
          (((du + pr.2.weight : ℚ)) : WithTop ℚ)) ∧
        (∀ v, settled (todo.foldl (relaxOne u du) st) v ↔ settled st v) ∧
        (todo.foldl (relaxOne u du) st).pq.length ≤ st.pq.length + todo.length := by
  intro todo
  induction todo with
  | nil =>
    intro st hM hed
    exact ⟨hM, fun v => le_refl _, by simp, fun v => Iff.rfl, by simp⟩
  | cons pr rest ih =>
    intro st hM hed
    obtain ⟨h1, h2, h3, h4, h5⟩ :=
      relax_step hwf hnn hM pr (hed pr (List.mem_cons_self pr rest))
    obtain ⟨g1, g2, g3, g4, g5⟩ :=
      ih (relaxOne u du st pr) h1 (fun q hq => hed q (List.mem_cons_of_mem pr hq))
    rw [List.foldl_cons]
    refine ⟨g1, ?_, ?_, ?_, ?_⟩
    · intro v
      exact le_trans (g2 v) (h2 v)
    · intro q hq
      rcases List.mem_cons.mp hq with rfl | hq'
      · exact le_trans (g2 q.1) h3
      · exact g3 q hq'
    · intro v
      exact (g4 v).trans (h4 v)
    · simp only [List.length_cons]
      omega

theorem filterSum_mono {TNode : Type} [DecidableEq TNode] (b b' : TNode → Bool)
    (hmono : ∀ v, b' v = false → b v = false) :
    ∀ (l : List (TNode × List (TNode × WeightedEdge))),
      ((l.filter (fun p => ! b' p.1)).map (fun p => p.2.length)).sum ≤
        ((l.filter (fun p => ! b p.1)).map (fun p => p.2.length)).sum := by
  intro l
  induction l with
  | nil => simp
  | cons p t ih =>
    by_cases hb' : b' p.1 = true
    · by_cases hb : b p.1 = true
      · simpa [List.filter_cons, hb', hb] using ih
      · have hbf : b p.1 = false := by simpa using hb
        simp [List.filter_cons, hb', hbf]
        omega
    · have hb'f : b' p.1 = false := by simpa using hb'
      have hbf : b p.1 = false := hmono p.1 hb'f
      simp [List.filter_cons, hb'f, hbf]
      omega

/-- Settling `u` removes `u`'s full out-degree from the unsettled degree sum. -/
theorem filterSum_drop {TNode : Type} [DecidableEq TNode] (b b' : TNode → Bool) (u : TNode)
    (hb : ∀ v, v ≠ u → b' v = b v) (hbu : b u = false) (hbu' : b' u = true) :
    ∀ (l : List (TNode × List (TNode × WeightedEdge))) (edges : List (TNode × WeightedEdge)),
      getA l u = some edges →
      ((l.filter (fun p => ! b' p.1)).map (fun p => p.2.length)).sum + edges.length ≤
        ((l.filter (fun p => ! b p.1)).map (fun p => p.2.length)).sum := by
  have hmono : ∀ v, b' v = false → b v = false := by
    intro v hv
    by_cases hvu : v = u
    · subst hvu; rw [hbu'] at hv; cases hv
    · rw [← hb v hvu]; exact hv
  intro l
  induction l with
  | nil => intro edges h; simp [getA] at h
  | cons p t ih =>
    intro edges h
    by_cases hp : p.1 = u
    · simp only [getA, if_pos hp] at h
      obtain rfl : p.2 = edges := Option.some.inj h
      have hmn := filterSum_mono b b' hmono t
      simp [List.filter_cons, hp, hbu, hbu']
      omega
    · simp only [getA, if_neg hp] at h
      have hsame : b' p.1 = b p.1 := hb p.1 hp
      by_cases hbp : b p.1 = true
      · have hb'p : b' p.1 = true := hsame.trans hbp
        have hih := ih edges h
        simp [List.filter_cons, hbp, hb'p]
        omega
      · have hbpf : b p.1 = false := by simpa using hbp
        have hb'pf : b' p.1 = false := hsame.trans hbpf
        have hih := ih edges h
        simp [List.filter_cons, hbpf, hb'pf]
        omega

theorem settledB_false_of_not [DecidableEq TNode] (st : DijkstraState TNode) (v : TNode)
    (h : ¬ settled st v) : settledB st v = false := by
  cases hb : settledB st v
  · rfl
  · exact absurd ((settledB_iff st v).mp hb) h

/-- Processing a non-stale entry settles its node, preserves the invariant and
strictly decreases the potential. -/
theorem DInv_relax [LinearOrder TNode] [DecidableEq TNode] {g : Graph TNode WeightedEdge}
    {start : TNode} {st : DijkstraState TNode}
    (hwf : GraphWF g) (hnn : NonnegWeights g) (hstart : hasNode g start = true)
    (hinv : DInv g start st) {du : ℚ} {u : TNode} {rest : List (ℚ × TNode)}
    (hpop : popMin st.pq = some ((du, u), rest))
    (heq : ((du : ℚ) : WithTop ℚ) = distGet st.dist u)
    {edges : List (TNode × WeightedEdge)}
    (hadj : getA g.adjacency u = some edges) :
    DInv g start (edges.foldl (relaxOne u du) { st with pq := rest }) ∧
      potential g (edges.foldl (relaxOne u du) { st with pq := rest }) + 1 ≤ potential g st := by
  obtain ⟨hM0, hsiff0, hnsu, hlen⟩ := MInv_of_pop hwf hnn hstart hinv hpop heq
  have hed : ∀ pr ∈ edges, isEdgeW g u pr.1 pr.2.weight := by
    intro pr hpr
    exact ⟨edges, hadj, hpr⟩
  obtain ⟨hM, hmono, hproc, hsiff, hqlen⟩ :=
    relax_fold hwf hnn edges { st with pq := rest } hM0 hed
  have hfin_set_u : settled (edges.foldl (relaxOne u du) { st with pq := rest }) u :=
    (hsiff u).mpr hM0.u_set
  have hfin_iff : ∀ v, v ≠ u →
      (settled (edges.foldl (relaxOne u du) { st with pq := rest }) v ↔ settled st v) := by
    intro v hv
    exact (hsiff v).trans (hsiff0 v hv)
  constructor
  · refine ⟨hM.keys, hM.nodup, hM.pq_lb, hM.pq_path, hM.attain, hM.settled_lb, ?_,
      hM.start0, hM.parent_prop, hM.parent_some, hM.order⟩
    intro x hx v w he
    by_cases hxu : x = u
    · subst hxu
      obtain ⟨l, hl, hmem⟩ := he
      obtain rfl : edges = l := Option.some.inj (hadj.symm.trans hl)
      have h1 := hproc (v, ⟨w⟩) hmem
      have h2 : distGet (edges.foldl (relaxOne x du) { st with pq := rest }).dist x
          = ((du : ℚ) : WithTop ℚ) := distGet_of_getA _ _ _ hM.u_dist
      rw [h2]
      refine le_trans h1 (le_of_eq ?_)
      push_cast
      rfl
    · exact hM.frontier' x hx hxu v w he
  · set fin := edges.foldl (relaxOne u du) { st with pq := rest } with hfin
    have hbu : settledB st u = false := settledB_false_of_not st u hnsu
    have hbu' : settledB fin u = true := (settledB_iff fin u).mpr hfin_set_u
    have hbeq : ∀ v, v ≠ u → settledB fin v = settledB st v := by
      intro v hv
      exact bool_eq_of_iff ((settledB_iff fin v).trans
        ((hfin_iff v hv).trans (settledB_iff st v).symm))
    have hdrop := filterSum_drop (settledB st) (settledB fin) u hbeq hbu hbu'
      g.adjacency edges hadj
    have hq2 : fin.pq.length ≤ rest.length + edges.length := by
      have : ({ st with pq := rest } : DijkstraState TNode).pq.length = rest.length := rfl
      omega
    unfold potential
    omega

/-- The main loop drains the queue and preserves the invariant whenever the
fuel dominates the potential. -/
theorem dijkstraLoop_main [LinearOrder TNode] [DecidableEq TNode] {g : Graph TNode WeightedEdge}
    {start : TNode} (hwf : GraphWF g) (hnn : NonnegWeights g)
    (hstart : hasNode g start = true) :
    ∀ (fuel : ℕ) (st : DijkstraState TNode), DInv g start st → potential g st ≤ fuel →
      DInv g start (dijkstraLoop g fuel st) ∧ (dijkstraLoop g fuel st).pq = [] := by
  intro fuel
  induction fuel with
  | zero =>
    intro st hinv hpot
    unfold potential at hpot
    have hq : st.pq = [] := List.length_eq_zero.mp (by omega)
    exact ⟨hinv, hq⟩
  | succ n ih =>
    intro st hinv hpot
    rcases hpop : popMin st.pq with _ | ⟨⟨du, u⟩, rest⟩
    · have hq : st.pq = [] := (popMin_none_iff st.pq).mp hpop
      simp only [dijkstraLoop, hpop]
      exact ⟨hinv, hq⟩
    · by_cases heq : ((du : ℚ) : WithTop ℚ) = distGet st.dist u
      · rcases hadj : getA g.adjacency u with _ | edges
        · exfalso
          obtain ⟨hmem0, -, -, -, -, -⟩ := pop_facts st.pq du u rest hpop hinv.nodup
          have hpath := hinv.pq_path du u hmem0
          have hnode : hasNode g u = true := path_end_hasNode hwf hstart hpath
          unfold hasNode at hnode
          rw [hadj] at hnode
          cases hnode
        · obtain ⟨hinv2, hpot2⟩ := DInv_relax hwf hnn hstart hinv hpop heq hadj
          simp only [dijkstraLoop, hpop, heq, if_pos, hadj]
          exact ih _ hinv2 (by omega)
      · obtain ⟨hinv2, hpot2⟩ := DInv_stale hinv hpop heq
        simp only [dijkstraLoop, hpop, if_neg heq]
        exact ih _ hinv2 (by omega)

theorem getA_map_top_isSome [DecidableEq TNode]
    (l : List (TNode × List (TNode × WeightedEdge))) (k : TNode) :
    (getA (l.map (fun p => (p.1, (⊤ : WithTop ℚ)))) k).isSome = (getA l k).isSome := by
  induction l with
  | nil => simp [getA]
  | cons p t ih =>
    by_cases hp : p.1 = k
    · simp [getA, hp]
    · simp [getA, hp, ih]

theorem getA_map_top_eq [DecidableEq TNode]
    (l : List (TNode × List (TNode × WeightedEdge))) (k : TNode) (d : WithTop ℚ)
    (h : getA (l.map (fun p => (p.1, (⊤ : WithTop ℚ)))) k = some d) : d = ⊤ := by
  induction l with
  | nil => simp [getA] at h
  | cons p t ih =>
    by_cases hp : p.1 = k
    · simp only [List.map_cons, getA, if_pos hp] at h
      exact (Option.some.inj h).symm
    · simp only [List.map_cons, getA, if_neg hp] at h
      exact ih h

theorem filterSum_le_total {TNode : Type} [DecidableEq TNode] (q : TNode → Bool)
    (l : List (TNode × List (TNode × WeightedEdge))) :
    ((l.filter (fun p => q p.1)).map (fun p => p.2.length)).sum ≤
      (l.map (fun p => p.2.length)).sum := by
  induction l with
  | nil => simp
  | cons p t ih =>
    by_cases hq : q p.1 = true
    · simp [List.filter_cons, hq]
      omega
    · have hqf : q p.1 = false := by simpa using hq
      simp [List.filter_cons, hqf]
      omega

/-- After `Dijkstra::run` on a graph containing the start node, the invariant
holds and the queue is drained. -/
theorem dijkstraRun_main [LinearOrder TNode] [DecidableEq TNode] {g : Graph TNode WeightedEdge}
    {start : TNode} (hwf : GraphWF g) (hnn : NonnegWeights g)
    (hstart : hasNode g start = true) :
    DInv g start (dijkstraRun g start) ∧ (dijkstraRun g start).pq = [] := by
  unfold dijkstraRun
  rw [if_pos hstart]
  set dist0 := g.adjacency.map (fun p => (p.1, (⊤ : WithTop ℚ))) with hdist0
  set st0 : DijkstraState TNode :=
    { dist := setA dist0 start ((0 : ℚ) : WithTop ℚ), parent := [], pq := [(0, start)] }
    with hst0
  have hnosettle : ∀ v, ¬ settled st0 v := by
    rintro v ⟨d, hd, hn⟩
    by_cases hv : v = start
    · subst hv
      rw [hst0] at hd hn
      simp only [getA_setA_same] at hd
      have hd0 : (0 : ℚ) = d := by exact_mod_cast Option.some.inj hd
      rw [← hd0] at hn
      simp at hn
    · rw [hst0] at hd
      simp only at hd
      rw [getA_setA_ne _ _ _ _ (Ne.symm hv)] at hd
      exact WithTop.coe_ne_top (getA_map_top_eq g.adjacency v _ hd)
  have hinv0 : DInv g start st0 := by
    refine ⟨?_, ?_, ?_, ?_, ?_, ?_, ?_, ?_, ?_, ?_, ?_⟩
    · intro v
      by_cases hv : v = start
      · subst hv
        rw [hst0]
        simp only [getA_setA_same, Option.isSome_some]
        exact hstart.symm
      · rw [hst0]
        simp only
        rw [getA_setA_ne _ _ _ _ (Ne.symm hv), hdist0, getA_map_top_isSome]
        rfl
    · rw [hst0]; simp
    · intro d v h
      rw [hst0] at h ⊢
      simp only [List.mem_singleton, Prod.mk.injEq] at h
      obtain ⟨rfl, rfl⟩ := h
      simp only [distGet, getA_setA_same]
      exact le_refl _
    · intro d v h
      rw [hst0] at h
      simp only [List.mem_singleton, Prod.mk.injEq] at h
      obtain ⟨rfl, rfl⟩ := h
      exact IsPathW.nil
    · intro v d h
      by_cases hv : v = start
      · subst hv
        rw [hst0] at h
        simp only [getA_setA_same] at h
        have hd0 : (0 : ℚ) = d := by exact_mod_cast Option.some.inj h
        rw [← hd0]
        exact IsPathW.nil
      · rw [hst0] at h
        simp only at h
        rw [getA_setA_ne _ _ _ _ (Ne.symm hv)] at h
        exact absurd (getA_map_top_eq g.adjacency v _ h) WithTop.coe_ne_top
    · intro v hv
      exact absurd hv (hnosettle v)
    · intro x hx
      exact absurd hx (hnosettle x)
    · rw [hst0]
      simp only [getA_setA_same]
    · intro v p hp
      rw [hst0] at hp
      simp [getA] at hp
    · intro v hv d h
      by_cases hvs : v = start
      · exact absurd hvs hv
      · rw [hst0] at h
        simp only at h
        rw [getA_setA_ne _ _ _ _ (Ne.symm hvs)] at h
        exact absurd (getA_map_top_eq g.adjacency v _ h) WithTop.coe_ne_top
    · refine ⟨[], by simp, ?_, ?_⟩
      · intro v
        simp only [List.not_mem_nil, false_iff]
        exact hnosettle v
      · intro i hi
        simp at hi
  have hpot0 : potential g st0 ≤ 2 + edgeCount g := by
    have hq : st0.pq.length = 1 := rfl
    have hfs : ((g.adjacency.filter (fun p => ! settledB st0 p.1)).map
        (fun p => p.2.length)).sum ≤ (g.adjacency.map (fun p => p.2.length)).sum :=
      filterSum_le_total (fun v => ! settledB st0 v) g.adjacency
    unfold potential edgeCount
    omega
  exact dijkstraLoop_main hwf hnn hstart (2 + edgeCount g) st0 hinv0 hpot0

/-- Part (a) of the Dijkstra contract, read off the drained final state: each
node's entry is the least path cost, or `⊤` when unreachable. -/
theorem final_dist_spec [LinearOrder TNode] [DecidableEq TNode] {g : Graph TNode WeightedEdge}
    {start : TNode} {st : DijkstraState TNode}
    (hwf : GraphWF g) (hnn : NonnegWeights g)
    (hinv : DInv g start st) (hpq : st.pq = []) (v : TNode) (hv : hasNode g v = true) :
    (∃ d : ℚ, getA st.dist v = some ((d : ℚ) : WithTop ℚ) ∧ IsPathW g start v d ∧
      ∀ c, IsPathW g start v c → d ≤ c) ∨
    (getA st.dist v = some ⊤ ∧ ∀ c, ¬ IsPathW g start v c) := by
  have hsome : (getA st.dist v).isSome = true := by rw [hinv.keys v, hv]
  obtain ⟨D, hD⟩ := Option.isSome_iff_exists.mp hsome
  by_cases ht : D = ⊤
  · subst ht
    right
    refine ⟨hD, ?_⟩
    intro c hc
    have hns : ¬ settled st v := by
      rintro ⟨d, hd, -⟩
      exact WithTop.coe_ne_top (Option.some.inj (hD.symm.trans hd)).symm
    obtain ⟨d2, v2, hmem, -⟩ := cover hwf hnn hinv hc hns
    rw [hpq] at hmem
    simp at hmem
  · obtain ⟨d, rfl⟩ := WithTop.ne_top_iff_exists.mp ht
    left
    refine ⟨d, hD, hinv.attain v d hD, ?_⟩
    have hs : settled st v := ⟨d, hD, by rw [hpq]; simp⟩
    intro c hc
    have hlb := hinv.settled_lb v hs c hc
    rw [distGet_of_getA _ _ _ hD] at hlb
    exact_mod_cast hlb

theorem chainEnd_append (a : TNode) (s1 s2 : List (TNode × ℚ)) :
    chainEnd a (s1 ++ s2) = chainEnd (chainEnd a s1) s2 := by
  induction s1 generalizing a with
  | nil => simp [chainEnd]
  | cons p t ih =>
    rcases p with ⟨v, w⟩
    rw [List.cons_append, chainEnd_cons, chainEnd_cons, ih]

/-- Part (b): along a chain that realizes the recorded distance of its
endpoint, recorded distances never decrease across an edge. -/
theorem final_monotone [LinearOrder TNode] [DecidableEq TNode] {g : Graph TNode WeightedEdge}
    {start : TNode} {st : DijkstraState TNode}
    (hwf : GraphWF g) (hnn : NonnegWeights g) (hstart : hasNode g start = true)
    (hinv : DInv g start st) (hpq : st.pq = [])
    (s1 : List (TNode × ℚ)) (v : TNode) (w : ℚ) (s2 : List (TNode × ℚ))
    (hchain : IsChainFrom g start (s1 ++ (v, w) :: s2))
    (hcost : ((chainCost (s1 ++ (v, w) :: s2) : ℚ) : WithTop ℚ)
      = distGet st.dist (chainEnd start (s1 ++ (v, w) :: s2))) :
    distGet st.dist (chainEnd start s1) ≤ distGet st.dist v := by
  obtain ⟨hc1, hc2⟩ := (chain_append_split g s1 ((v, w) :: s2) (start)).mp hchain
  obtain ⟨hev, hcs2⟩ := hc2
  have hw : 0 ≤ w := isEdgeW_nonneg hnn hev
  have hpu : IsPathW g start (chainEnd start s1) (chainCost s1) := chain_to_path g s1 start hc1
  have hpv : IsPathW g start v (chainCost s1 + w) := IsPathW.cons hpu hev
  have hnu : hasNode g (chainEnd start s1) = true := path_end_hasNode hwf hstart hpu
  have hnv : hasNode g v = true := path_end_hasNode hwf hstart hpv
  rcases final_dist_spec hwf hnn hinv hpq (chainEnd start s1) hnu with
    ⟨d1, hd1, hp1, hmin1⟩ | ⟨-, hnp⟩
  swap
  · exact absurd hpu (hnp _)
  rcases final_dist_spec hwf hnn hinv hpq v hnv with ⟨d2, hd2, hp2, hmin2⟩ | ⟨-, hnp⟩
  swap
  · exact absurd hpv (hnp _)
  have hzend : chainEnd start (s1 ++ (v, w) :: s2) = chainEnd v s2 := by
    rw [chainEnd_append, chainEnd_cons]
  have hztot : chainCost (s1 ++ (v, w) :: s2) = chainCost s1 + w + chainCost s2 := by
    rw [chainCost_append, chainCost_cons]
    ring
  have hpz : IsPathW g start (chainEnd v s2) (d2 + chainCost s2) :=
    IsPathW.compose hp2 (chain_to_path g s2 v hcs2)
  have hnz : hasNode g (chainEnd v s2) = true := path_end_hasNode hwf hstart hpz
  rcases final_dist_spec hwf hnn hinv hpq (chainEnd v s2) hnz with
    ⟨dz, hdz, hpzz, hminz⟩ | ⟨hdz, hnp⟩
  · have hdg : distGet st.dist (chainEnd v s2) = ((dz : ℚ) : WithTop ℚ) :=
      distGet_of_getA _ _ _ hdz
    rw [hzend, hdg] at hcost
    have htot_dz : chainCost (s1 ++ (v, w) :: s2) = dz := by exact_mod_cast hcost
    have hle : dz ≤ d2 + chainCost s2 := hminz _ hpz
    have h1 : d1 ≤ chainCost s1 := hmin1 _ hpu
    rw [distGet_of_getA _ _ _ hd1, distGet_of_getA _ _ _ hd2]
    have : d1 ≤ d2 := by
      rw [hztot] at htot_dz
      linarith
    exact_mod_cast this
  · exfalso
    rw [hzend, distGet_of_getA _ _ _ hdz] at hcost
    exact WithTop.coe_ne_top hcost

theorem length_le_filter_ne_add_one {α : Type} [DecidableEq α] (l : List α) (a : α)
    (hnd : l.Nodup) :
    l.length ≤ (l.filter (fun x => ! decide (x = a))).length + 1 := by
  induction l with
  | nil => simp
  | cons x t ih =>
    obtain ⟨hx, hnd'⟩ := List.nodup_cons.mp hnd
    by_cases hxa : x = a
    · subst hxa
      have hkeep : t.filter (fun y => ! decide (y = x)) = t := by
        apply List.filter_eq_self.mpr
        intro y hy
        simp only [Bool.not_eq_true', decide_eq_false_iff_not]
        intro hyx
        exact hx (hyx ▸ hy)
      simp [List.filter_cons, hkeep]
    · have hih := ih hnd'
      simp [List.filter_cons, hxa]
      omega

/-- Part (c): the backward parent walk of `getPathTo` reconstructs, for every
target with a finite recorded distance, a chain from `start` whose
consecutive-edge weights sum to that distance. -/
theorem final_reconstruct [LinearOrder TNode] [DecidableEq TNode] {g : Graph TNode WeightedEdge}
    {start : TNode} {st : DijkstraState TNode}
    (hwf : GraphWF g) (hnn : NonnegWeights g) (hstart : hasNode g start = true)
    (hinv : DInv g start st) (hpq : st.pq = [])
    (target : TNode) (d : ℚ) (hdt : getA st.dist target = some ((d : ℚ) : WithTop ℚ)) :
    ∃ steps : List (TNode × ℚ), IsChainFrom g start steps ∧ chainEnd start steps = target ∧
      chainCost steps = d ∧
      getPathTo st.dist st.parent start target = some (start :: steps.map Prod.fst) := by
  obtain ⟨seq, hnd, hiff, hord⟩ := hinv.order
  have hseqlen : seq.length ≤ st.parent.length + 1 := by
    have h1 : (seq.filter (fun x => ! decide (x = start))).length ≤ st.parent.length := by
      apply nodup_keys_length_le
      · exact hnd.filter _
      · intro v hv
        obtain ⟨hvs, hvp⟩ := List.mem_filter.mp hv
        have hset : settled st v := (hiff v).mp hvs
        obtain ⟨dv, hdv, -⟩ := hset
        have hvne : v ≠ start := by simpa using hvp
        exact hinv.parent_some v hvne dv hdv
    have h2 := length_le_filter_ne_add_one seq start hnd
    omega
  have main : ∀ i (hi : i < seq.length) (v : TNode), seq.get ⟨i, hi⟩ = v →
      ∃ steps : List (TNode × ℚ), IsChainFrom g start steps ∧ chainEnd start steps = v ∧
        ((chainCost steps : ℚ) : WithTop ℚ) = distGet st.dist v ∧
        steps.length ≤ i ∧
        ∀ fuel acc, steps.length < fuel →
          walkParent st.parent start fuel v acc = some (start :: steps.map Prod.fst ++ acc) := by
    intro i
    induction i using Nat.strong_induction_on with
    | _ i ih =>
      intro hi v hveq
      by_cases hvs : v = start
      · subst hvs
        refine ⟨[], trivial, rfl, ?_, Nat.zero_le i, ?_⟩
        · rw [distGet_of_getA _ _ _ hinv.start0]
          norm_num [chainCost]
        · intro fuel acc hf
          cases fuel with
          | zero => omega
          | succ f => simp [walkParent]
      · have hsv : settled st v := (hiff v).mp (hveq ▸ seq.get_mem i hi)
        obtain ⟨dv, hdv, -⟩ := hsv
        have hpsome : (getA st.parent v).isSome = true := hinv.parent_some v hvs dv hdv
        obtain ⟨p, hp⟩ := Option.isSome_iff_exists.mp hpsome
        obtain ⟨hps, wv, hev, hdeq⟩ := hinv.parent_prop v p hp
        obtain ⟨j, hj, hji, hgj⟩ := hord i hi p (by rw [hveq]; exact hp)
        obtain ⟨sp, hchp, hendp, hcostp, hlenp, hwalkp⟩ := ih j hji hj p hgj
        refine ⟨sp ++ [(v, wv)], ?_, chainEnd_append_single start v wv sp, ?_, ?_, ?_⟩
        · rw [chain_append_split]
          refine ⟨hchp, ?_⟩
          rw [hendp]
          exact ⟨hev, trivial⟩
        · rw [chainCost_append, chainCost_cons, chainCost_nil]
          have harith : chainCost sp + (wv + 0) = chainCost sp + wv := by ring
          rw [harith, WithTop.coe_add, hcostp, hdeq]
        · simp only [List.length_append, List.length_singleton]
          omega
        · intro fuel acc hf
          cases fuel with
          | zero => simp at hf
          | succ f =>
            have hfs : sp.length < f := by
              simp only [List.length_append, List.length_singleton] at hf
              omega
            simp only [walkParent, if_neg hvs, hp]
            rw [hwalkp f (v :: acc) hfs]
            simp
  have hstgt : settled st target := ⟨d, hdt, by rw [hpq]; simp⟩
  have htmem : target ∈ seq := (hiff target).mpr hstgt
  obtain ⟨⟨i, hi⟩, hget⟩ := List.mem_iff_get.mp htmem
  obtain ⟨steps, hch, hend, hcost, hlen, hwalk⟩ := main i hi target hget
  have hfuel : steps.length < st.parent.length + 1 := by omega
  have hwalk2 := hwalk (st.parent.length + 1) [] hfuel
  refine ⟨steps, hch, hend, ?_, ?_⟩
  · rw [distGet_of_getA _ _ _ hdt] at hcost
    exact_mod_cast hcost
  · simp only [getPathTo, hdt]
    rw [if_neg (WithTop.coe_ne_top)]
    rw [hwalk2]
    simp

/-- The three-part shortest-path contract of `Dijkstra::run`/`getPathTo`:
(a) each node's `dist` entry is the least path-weight sum, `⊤` exactly when
the node is unreachable; (b) recorded distances never decrease across an edge
of a chain that realizes the recorded distance of its endpoint; (c) for every
target with finite recorded distance, the walk returned by `getPathTo` is a
chain from `start` whose consecutive-pair weights sum to `dist[target]`. -/
def DijkstraSpec [LinearOrder TNode] [DecidableEq TNode] (g : Graph TNode WeightedEdge)
    (start : TNode) : Prop :=
  (∀ v, hasNode g v = true →
    (∃ d : ℚ, getA (dijkstraRun g start).dist v = some ((d : ℚ) : WithTop ℚ) ∧
      IsPathW g start v d ∧ ∀ c, IsPathW g start v c → d ≤ c) ∨
    (getA (dijkstraRun g start).dist v = some ⊤ ∧ ∀ c, ¬ IsPathW g start v c)) ∧
  (∀ (s1 : List (TNode × ℚ)) (v : TNode) (w : ℚ) (s2 : List (TNode × ℚ)),
    IsChainFrom g start (s1 ++ (v, w) :: s2) →
    ((chainCost (s1 ++ (v, w) :: s2) : ℚ) : WithTop ℚ)
      = distGet (dijkstraRun g start).dist (chainEnd start (s1 ++ (v, w) :: s2)) →
    distGet (dijkstraRun g start).dist (chainEnd start s1)
      ≤ distGet (dijkstraRun g start).dist v) ∧
  (∀ (target : TNode) (d : ℚ),
    getA (dijkstraRun g start).dist target = some ((d : ℚ) : WithTop ℚ) →
    ∃ steps : List (TNode × ℚ), IsChainFrom g start steps ∧
      chainEnd start steps = target ∧ chainCost steps = d ∧
      getPathTo (dijkstraRun g start).dist (dijkstraRun g start).parent start target
        = some (start :: steps.map Prod.fst))

/-- C1: for every directed graph with nonnegative `WeightedEdge` weights whose
start node is in the graph, after `Dijkstra::run` the recorded distance of
every node is the minimum path-weight sum from the start (`+∞` when no path
exists), the recorded distances are monotonically non-decreasing along any
chain realizing the recorded distance of its endpoint, and for every target
with a finite recorded distance `getPathTo` returns a sequence whose
consecutive-pair weight sum equals `dist[target]`. -/
theorem c1_dijkstra_shortest_paths [LinearOrder TNode] [DecidableEq TNode]
    (g : Graph TNode WeightedEdge) (start : TNode)
    (hwf : GraphWF g) (hnn : NonnegWeights g) (hstart : hasNode g start = true) :
    DijkstraSpec g start := by
  obtain ⟨hinv, hpq⟩ := dijkstraRun_main hwf hnn hstart
  exact ⟨fun v hv => final_dist_spec hwf hnn hinv hpq v hv,
    fun s1 v w s2 h1 h2 => final_monotone hwf hnn hstart hinv hpq s1 v w s2 h1 h2,
    fun t d h => final_reconstruct hwf hnn hstart hinv hpq t d h⟩

/-- The weighted graph of the `GraphDijkstraTest.BasicPathAndDistance` test. -/
def gEx : Graph ℕ WeightedEdge :=
  addEdge (addEdge (addEdge { adjacency := [], directed_ := true } 1 2 ⟨5⟩) 2 3 ⟨2⟩) 1 3 ⟨9⟩

theorem c1_dijkstra_shortest_paths_witness :
    GraphWF gEx ∧ NonnegWeights gEx ∧ hasNode gEx 1 = true ∧ DijkstraSpec gEx 1 := by
  have hwf : GraphWF gEx := by
    unfold GraphWF
    decide
  have hnn : NonnegWeights gEx := by
    unfold NonnegWeights
    decide
  have hstart : hasNode gEx 1 = true := by decide
  exact ⟨hwf, hnn, hstart, c1_dijkstra_shortest_paths gEx 1 hwf hnn hstart⟩
